import Mathlib

/-!
Verification of the task-rewards module (src/src/task_rewards.rs) of the
aio-base-backend repository: task lifecycle state machine, Merkle snapshot
builder, proof generator and claim-ticket issuance.

Conventions of the embedding:
- Bytes are Nat values below 256; hashes (Rust [u8; 32]) are lists of bytes.
- SHA256 itself is an external library (the sha2 crate); every definition is
  parameterised by an arbitrary digest function H over the accumulated input
  bytes, mirroring the incremental Sha256 new/update/finalize interface.
- u64 arithmetic that can wrap (reward sums) is taken mod 2^64; the u64
  to u32 casts of the source are taken mod 2^32.  usize-to-u32 casts of
  layer lengths are modelled as identity: on the 32-bit wasm deployment
  target usize already fits u32, so those casts never truncate.
- The stable stores are external collaborators of this module
  (crate::stable_mem_storage is not part of the given sources).
  Modelled from the spec: a key-ordered mapping abstraction with
  get/insert/contains/iterate-by-key, realised as association lists kept in
  ascending key order by insertion, plus append-only growable lists with
  stable sequence indices for payments and the flat Merkle hash arena.
- The controller check (ic_cdk::api::is_controller) and the clock
  (ic_cdk::api::time) are external capabilities, passed as parameters.
- base58 wallet decoding (the bs58 crate) is modelled from the spec as the
  standard base58 big-endian decode with one leading zero byte per leading
  character of value one.
-/

/-! ## Bytes and byte-wise comparison -/

/-- A hash value: the 32 bytes of a Rust [u8; 32] as a list of Nat. -/
def MHash : Type := List Nat

instance : DecidableEq MHash := inferInstanceAs (DecidableEq (List Nat))

/-- Little-endian byte encoding of width w, as produced by to_le_bytes on a
w-byte machine integer: byte k is n / 256^k % 256. -/
def leBytes (w n : Nat) : List Nat :=
  (List.range w).map (fun k => n / 256 ^ k % 256)

/-- Lexicographic byte-wise comparison, the order Rust uses on [u8; 32]
(componentwise lexicographic). Returns true when a is less or equal b. -/
def lexLe : List Nat → List Nat → Bool
  | [], _ => true
  | _ :: _, [] => false
  | a :: as_, b :: bs => if a < b then true else if b < a then false else lexLe as_ bs

/-! ## Incremental hasher (sha2 Sha256 interface) -/

/-- State of an incremental hasher: the bytes fed so far. -/
structure HState where
  buf : List Nat

/-- Sha256::new() : empty buffer. -/
def hNew : HState := ⟨[]⟩

/-- hasher.update(bytes) appends to the input stream. -/
def hUpdate (st : HState) (bytes : List Nat) : HState := ⟨st.buf ++ bytes⟩

/-- hasher.finalize() : apply the digest function to the accumulated input. -/
def hFinalize (H : List Nat → MHash) (st : HState) : MHash := H st.buf

/-! ## Merkle hashing primitives (task_rewards.rs lines 318-348) -/

/-- compute_leaf_hash: SHA256(epoch u64 LE || index as u32 LE || wallet bytes
|| amount u64 LE).  The index is truncated to 32 bits: only four bytes of it
are fed to the hasher. -/
def compute_leaf_hash (H : List Nat → MHash) (epoch index : Nat)
    (wallet_bytes : List Nat) (amount : Nat) : MHash :=
  let h0 := hNew
  let h1 := hUpdate h0 (leBytes 8 epoch)
  let h2 := hUpdate h1 (leBytes 4 index)
  let h3 := hUpdate h2 wallet_bytes
  let h4 := hUpdate h3 (leBytes 8 amount)
  hFinalize H h4

/-- compute_parent_hash: hash the byte-wise smaller child first, so hashing
is order independent. -/
def compute_parent_hash (H : List Nat → MHash) (left right : MHash) : MHash :=
  if lexLe left right then
    hFinalize H (hUpdate (hUpdate hNew left) right)
  else
    hFinalize H (hUpdate (hUpdate hNew right) left)

/-! ## base58 wallet decoding (decode_wallet_base58, lines 350-363) -/

/-- The base58 alphabet used by bs58 (Bitcoin alphabet, as for Solana keys). -/
def base58Chars : List Char :=
  [ '1', '2', '3', '4', '5', '6', '7', '8', '9',
    'A', 'B', 'C', 'D', 'E', 'F', 'G', 'H', 'J', 'K', 'L', 'M', 'N',
    'P', 'Q', 'R', 'S', 'T', 'U', 'V', 'W', 'X', 'Y', 'Z',
    'a', 'b', 'c', 'd', 'e', 'f', 'g', 'h', 'i', 'j', 'k', 'm', 'n',
    'o', 'p', 'q', 'r', 's', 't', 'u', 'v', 'w', 'x', 'y', 'z' ]

/-- Digit value of one base58 character, none for characters outside the
alphabet. -/
def b58Digit (c : Char) : Option Nat :=
  base58Chars.indexOf? c

/-- Map every character of the string to its base58 digit; none if any
character is invalid. -/
def b58Digits (s : String) : Option (List Nat) :=
  s.data.mapM b58Digit

/-- Big-endian minimal byte representation of a Nat (empty for zero),
computed with an explicit fuel argument (the number itself suffices). -/
def natBytesLEAux : Nat → Nat → List Nat
  | 0, _ => []
  | _ + 1, 0 => []
  | fuel + 1, n + 1 => ((n + 1) % 256) :: natBytesLEAux fuel ((n + 1) / 256)

/-- Big-endian bytes of n, minimal length. -/
def natBytesBE (n : Nat) : List Nat := (natBytesLEAux n n).reverse

/-- Modelled from the spec: bs58 decoding (crate bs58 is external code).
One leading zero byte per leading digit of value zero, then the big-endian
bytes of the base58 value of the digit string. -/
def bs58Decode (s : String) : Option (List Nat) :=
  match b58Digits s with
  | none => none
  | some ds =>
    let zeros := (ds.takeWhile (fun d => d = 0)).length
    let value := ds.foldl (fun acc d => acc * 58 + d) 0
    some (List.replicate zeros 0 ++ natBytesBE value)

/-- decode_wallet_base58: decode and insist on exactly 32 bytes. -/
def decode_wallet_base58 (wallet : String) : Except String (List Nat) :=
  match bs58Decode wallet with
  | none => .error "Invalid base58: provided string contained invalid character"
  | some decoded =>
    if decoded.length ≠ 32 then
      .error ("Invalid wallet length: expected 32 bytes, got " ++ toString decoded.length)
    else
      .ok decoded

/-! ## Data structures (task_rewards.rs lines 20-314) -/

/-- Task contract item: a task and its reward. -/
structure TaskContractItem where
  taskid : String
  reward : Nat
  payfor : Option String
deriving DecidableEq

/-- Task status. -/
inductive TaskStatus where
  | NotStarted
  | InProgress
  | Completed
  | RewardPrepared
  | TicketIssued
  | Claimed
deriving DecidableEq

/-- Claim result status reported back after an on-chain claim attempt. -/
inductive ClaimResultStatus where
  | Success
  | Failed
deriving DecidableEq

/-- Per-wallet task detail. -/
structure UserTaskDetail where
  taskid : String
  status : TaskStatus
  completed_at : Nat
  reward_amount : Nat
  evidence : Option String
deriving DecidableEq

/-- Aggregate of all tasks of one wallet. -/
structure UserTaskState where
  wallet : String
  tasks : List UserTaskDetail
  total_unclaimed : Nat
deriving DecidableEq

/-- Payment ledger record. -/
structure PaymentRecord where
  wallet : String
  amount_paid : Nat
  tx_ref : String
  ts : Nat
  payfor : Option String
deriving DecidableEq

/-- One leaf of the Merkle tree: a wallet's claimable sum in an epoch. -/
structure ClaimEntry where
  epoch : Nat
  index : Nat
  wallet : String
  amount : Nat
deriving DecidableEq

/-- Frozen snapshot metadata of one epoch. -/
structure MerkleSnapshotMeta where
  epoch : Nat
  root : MHash
  leaves_count : Nat
  locked : Bool
  created_at : Nat
deriving DecidableEq

/-- Claim ticket returned to the caller. -/
structure ClaimTicket where
  epoch : Nat
  index : Nat
  wallet : String
  amount : Nat
  proof : List MHash
  root : MHash
deriving DecidableEq

/-- Offset and length of one stored Merkle layer in the flat hash arena. -/
structure LayerOffset where
  start : Nat
  len : Nat
deriving DecidableEq

/-- Key of the per-(epoch, wallet) leaf index store. -/
structure EpochWalletKey where
  epoch : Nat
  wallet : String
deriving DecidableEq

/-- Key of the per-(epoch, layer) offset store. -/
structure EpochLayerKey where
  epoch : Nat
  layer_id : Nat
deriving DecidableEq

/-! ## Key-ordered map abstraction.

Modelled from the spec: the persistent store is an injected key-ordered
mapping abstraction (get/insert/contains/iterate by key); we realise it as an
association list into which insert places a pair in ascending key position,
replacing an existing pair with an equal key. -/

/-- Insert into an association list ordered by the strict order lt:
replace the first pair with an equal key, otherwise place the new pair
before the first strictly greater key. -/
def ainsert {K V : Type} [DecidableEq K] (lt : K → K → Bool) :
    List (K × V) → K → V → List (K × V)
  | [], k, v => [(k, v)]
  | (k', v') :: rest, k, v =>
    if k = k' then (k, v) :: rest
    else if lt k k' then (k, v) :: (k', v') :: rest
    else (k', v') :: ainsert lt rest k v

/-- Lookup in an association list: value of the first pair with this key. -/
def alookup {K V : Type} [DecidableEq K] : List (K × V) → K → Option V
  | [], _ => none
  | (k', v') :: rest, k => if k = k' then some v' else alookup rest k

/-- Strict order on strings as Rust orders them (byte-wise, which for valid
UTF-8 agrees with the character order used here). -/
def strLt (a b : String) : Bool := a < b

/-- Strict order on epoch-wallet keys: epoch first, then wallet. -/
def ewkLt (a b : EpochWalletKey) : Bool :=
  a.epoch < b.epoch || (a.epoch = b.epoch && strLt a.wallet b.wallet)

/-- Strict order on epoch-layer keys: epoch first, then layer id. -/
def elkLt (a b : EpochLayerKey) : Bool :=
  a.epoch < b.epoch || (a.epoch = b.epoch && a.layer_id < b.layer_id)

/-- Strict order on Nat keys. -/
def natLt (a b : Nat) : Bool := a < b

/-! ## The persistent store (crate::stable_mem_storage collaborators) -/

/-- All stable stores used by the module, as one record.  Maps are ordered
association lists; payments and epoch_layers are append-only sequences. -/
structure StoreState where
  task_contract : List (String × TaskContractItem)
  user_tasks : List (String × UserTaskState)
  payments : List PaymentRecord
  epoch_meta : List (Nat × MerkleSnapshotMeta)
  epoch_wallet_index : List (EpochWalletKey × (Nat × Nat))
  epoch_layers : List MHash
  epoch_layer_offsets : List (EpochLayerKey × LayerOffset)
deriving DecidableEq

/-- The store before any call: every collaborator starts empty. -/
def initStore : StoreState := ⟨[], [], [], [], [], [], []⟩

/-! ## Shared task-state helpers (task_rewards.rs lines 141-148) -/

/-- compute_total_unclaimed: sum of reward_amount over tasks that are not
Claimed and match RewardPrepared or TicketIssued (u64 sum, hence mod 2^64). -/
def compute_total_unclaimed (tasks : List UserTaskDetail) : Nat :=
  (((tasks.filter (fun t => ¬ (t.status = TaskStatus.Claimed))).filter
      (fun t => t.status = TaskStatus.RewardPrepared ∨ t.status = TaskStatus.TicketIssued)).map
    (fun t => t.reward_amount)).sum % 2 ^ 64

/-! ## Merkle tree construction (build_epoch_snapshot lines 641-671) -/

/-- One pass of the layer-building loop: pair adjacent nodes left to right;
a trailing unpaired node is hashed with itself. -/
def nextLayer (H : List Nat → MHash) : List MHash → List MHash
  | [] => []
  | [a] => [compute_parent_hash H a a]
  | a :: b :: rest => compute_parent_hash H a b :: nextLayer H rest

/-- Layer stack construction with explicit fuel (the leaf count suffices,
as every pass at least halves a layer of length above one). -/
def buildLayersFuel (H : List Nat → MHash) : Nat → List MHash → List (List MHash)
  | 0, layer => [layer]
  | fuel + 1, layer =>
    if 1 < layer.length then layer :: buildLayersFuel H fuel (nextLayer H layer)
    else [layer]

/-- all_layers of the source: the leaves, then every parent layer up to and
including the single-element root layer. -/
def buildLayers (H : List Nat → MHash) (leaves : List MHash) : List (List MHash) :=
  buildLayersFuel H leaves.length leaves

/-- The zero hash, used only as an out-of-range default of list reads whose
indices are in range wherever the source would have panicked otherwise. -/
def zeroHash : MHash := List.replicate 32 0

/-- The root: single element of the last layer. -/
def rootOf (layers : List (List MHash)) : MHash :=
  (layers.getLastD []).getD 0 zeroHash

/-- The claim entries scanned from the user task store: per wallet, the u64
sum of reward_amount over Completed tasks; wallets with zero sum skipped;
sorted by wallet ascending (a stable sort, as Rust sort_by); index = sorted
position. -/
def completedSum (st : UserTaskState) : Nat :=
  ((st.tasks.filter (fun t => t.status = TaskStatus.Completed)).map
    (fun t => t.reward_amount)).sum % 2 ^ 64

/-- Stable insertion into a list sorted by wallet ascending. -/
def insertByWallet (e : ClaimEntry) : List ClaimEntry → List ClaimEntry
  | [] => [e]
  | x :: rest => if strLt e.wallet x.wallet then e :: x :: rest else x :: insertByWallet e rest

/-- Stable sort by wallet ascending (equal keys keep their relative order,
as Rust's sort_by; stability makes the result independent of the stable
sorting algorithm used). -/
def sortByWallet : List ClaimEntry → List ClaimEntry
  | [] => []
  | x :: rest => insertByWallet x (sortByWallet rest)

/-- Entries of one snapshot build: scan wallets in key order, keep positive
completed sums, sort by wallet, then assign index = position. -/
def snapshotEntries (s : StoreState) (epoch : Nat) : List ClaimEntry :=
  let raw := s.user_tasks.filterMap (fun p =>
    let total := completedSum p.2
    if 0 < total then some { epoch := epoch, index := 0, wallet := p.1, amount := total }
    else none)
  (sortByWallet raw).enum.map (fun p => { p.2 with index := p.1 })

/-- Leaf hashes of the entries, in order (the source's leaf loop, which
aborts at the first wallet whose stored string does not decode to 32
bytes). -/
def buildLeaves (H : List Nat → MHash) : List ClaimEntry → Except String (List MHash)
  | [] => .ok []
  | e :: rest =>
    match decode_wallet_base58 e.wallet with
    | .error err => .error err
    | .ok wb =>
      match buildLeaves H rest with
      | .error err => .error err
      | .ok tail => .ok (compute_leaf_hash H e.epoch e.index wb e.amount :: tail)

/-- Store the per-layer offsets: walking the layers in order, each layer id
maps to the running start offset and the layer length (usize length; the
u32 cast is lossless on the 32-bit target). -/
def storeOffsets (epoch : Nat) : Nat → Nat → List (List MHash) →
    List (EpochLayerKey × LayerOffset) → List (EpochLayerKey × LayerOffset)
  | _, _, [], m => m
  | base, lid, layer :: rest, m =>
    storeOffsets epoch (base + layer.length) (lid + 1) rest
      (ainsert elkLt m ⟨epoch, lid⟩ ⟨base, layer.length⟩)

/-- Store the per-wallet leaf position and amount of every entry. -/
def storeWalletIndex (epoch : Nat) (entries : List ClaimEntry)
    (m : List (EpochWalletKey × (Nat × Nat))) : List (EpochWalletKey × (Nat × Nat)) :=
  entries.foldl (fun m e => ainsert ewkLt m ⟨epoch, e.wallet⟩ (e.index, e.amount)) m

/-- Flip every Completed task of one wallet state to RewardPrepared and
recompute the cached total. -/
def prepareState (st : UserTaskState) : UserTaskState :=
  let tasks := st.tasks.map (fun t =>
    if t.status = TaskStatus.Completed then { t with status := TaskStatus.RewardPrepared } else t)
  { st with tasks := tasks, total_unclaimed := compute_total_unclaimed tasks }

/-- Apply prepareState to every included wallet that has a stored state. -/
def prepareRewards (entries : List ClaimEntry) (m : List (String × UserTaskState)) :
    List (String × UserTaskState) :=
  entries.foldl (fun m e =>
    match alookup m e.wallet with
    | some st => ainsert strLt m e.wallet (prepareState st)
    | none => m) m

/-- build_epoch_snapshot (lines 584-750).  isController and now are the
external authorization and clock capabilities. -/
def build_epoch_snapshot (H : List Nat → MHash) (isController : Bool) (now : Nat)
    (epoch : Nat) (s : StoreState) : Except String MerkleSnapshotMeta × StoreState :=
  if ¬ isController then
    (.error "Only controller can build epoch snapshot", s)
  else if (alookup s.epoch_meta epoch).isSome then
    (.error ("Epoch " ++ toString epoch ++ " snapshot already exists"), s)
  else
    let entries := snapshotEntries s epoch
    if entries.isEmpty then
      (.error "No claimable rewards found for this epoch", s)
    else
      match buildLeaves H entries with
      | .error e => (.error e, s)
      | .ok leaves =>
        let layers := buildLayers H leaves
        let root := rootOf layers
        let s1 := { s with
          epoch_layers := s.epoch_layers ++ layers.flatten,
          epoch_layer_offsets :=
            storeOffsets epoch s.epoch_layers.length 0 layers s.epoch_layer_offsets }
        let s2 := { s1 with
          epoch_wallet_index := storeWalletIndex epoch entries s1.epoch_wallet_index }
        let s3 := { s2 with user_tasks := prepareRewards entries s2.user_tasks }
        let meta : MerkleSnapshotMeta :=
          { epoch := epoch, root := root, leaves_count := entries.length,
            locked := true, created_at := now }
        (.ok meta, { s3 with epoch_meta := ainsert natLt s3.epoch_meta epoch meta })

/-! ## Proof generation (generate_merkle_proof lines 829-885) -/

/-- Highest layer id stored for the epoch, scanning every offset entry
(zero when none matches), as the source's max-finding loop. -/
def maxLayerOf (m : List (EpochLayerKey × LayerOffset)) (epoch : Nat) : Nat :=
  m.foldl (fun mx p => if p.1.epoch = epoch ∧ mx < p.1.layer_id then p.1.layer_id else mx) 0

/-- The proof loop: for each layer id below the root, read the sibling (or,
past the end of an odd layer, the node itself) from the flat hash arena via
the layer offset, then move to the parent index. -/
def genProofAux (ofs : List (EpochLayerKey × LayerOffset)) (flat : List MHash)
    (epoch : Nat) : List Nat → Nat → Except String (List MHash)
  | [], _ => .ok []
  | lid :: rest, cur =>
    let sib := if cur % 2 = 0 then cur + 1 else cur - 1
    match alookup ofs ⟨epoch, lid⟩ with
    | none =>
      .error ("Layer offset not found for epoch " ++ toString epoch ++ " layer " ++ toString lid)
    | some off =>
      let pos := if sib < off.len then off.start + sib else off.start + cur
      match flat[pos]? with
      | none => .error ("Hash not found at position " ++ toString pos)
      | some h =>
        match genProofAux ofs flat epoch rest (cur / 2) with
        | .error e => .error e
        | .ok tail => .ok (h :: tail)

/-- generate_merkle_proof.  The u64 leaf index is cast to usize, which is
32 bits wide on the wasm target, hence the mod 2^32. -/
def generate_merkle_proof (s : StoreState) (epoch leaf_index : Nat) :
    Except String (List MHash) :=
  genProofAux s.epoch_layer_offsets s.epoch_layers epoch
    (List.range (maxLayerOf s.epoch_layer_offsets epoch)) (leaf_index % 2 ^ 32)

/-! ## Registry and lifecycle operations (task_rewards.rs lines 377-932) -/

/-- init_task_contract: admin-only upsert of task definitions by taskid. -/
def init_task_contract (isController : Bool) (tasks : List TaskContractItem)
    (s : StoreState) : Except String Unit × StoreState :=
  if ¬ isController then
    (.error "Only controller can initialize task contract", s)
  else
    (.ok (),
      { s with task_contract :=
          tasks.foldl (fun m task => ainsert strLt m task.taskid task) s.task_contract })

/-- get_task_contract: read-only listing in key order. -/
def get_task_contract (s : StoreState) : List TaskContractItem :=
  s.task_contract.map (fun p => p.2)

/-- The task list materialized for a fresh wallet: one detail per registry
entry in key order, NotStarted, completed_at zero, reward_amount taken from
the registry item, no evidence. -/
def freshTasks (s : StoreState) : List UserTaskDetail :=
  s.task_contract.map (fun p =>
    { taskid := p.2.taskid, status := TaskStatus.NotStarted, completed_at := 0,
      reward_amount := p.2.reward, evidence := none })

/-- get_or_init_user_tasks: a malformed wallet only logs a warning; an
existing aggregate is returned as stored; otherwise a fresh aggregate is
materialized from the registry, stored, and returned. -/
def get_or_init_user_tasks (wallet : String) (s : StoreState) :
    UserTaskState × StoreState :=
  match alookup s.user_tasks wallet with
  | some st => (st, s)
  | none =>
    let tasks := freshTasks s
    let st : UserTaskState :=
      { wallet := wallet, tasks := tasks, total_unclaimed := compute_total_unclaimed tasks }
    (st, { s with user_tasks := ainsert strLt s.user_tasks wallet st })

/-- First registry task whose payfor tag equals the given tag, in key
order. -/
def findPayforTask (s : StoreState) (payfor_str : String) : Option String :=
  (s.task_contract.find? (fun p => p.2.payfor = some payfor_str)).map (fun p => p.1)

/-- The auto-complete loop of record_payment: flip the first task with this
taskid and a NotStarted or InProgress status to Completed, stamping
completed_at; reward_amount and evidence are left untouched. -/
def autoCompleteTask (taskid : String) (ts : Nat) :
    List UserTaskDetail → List UserTaskDetail
  | [] => []
  | t :: rest =>
    if t.taskid = taskid ∧ (t.status = TaskStatus.NotStarted ∨ t.status = TaskStatus.InProgress) then
      { t with status := TaskStatus.Completed, completed_at := ts } :: rest
    else
      t :: autoCompleteTask taskid ts rest

/-- record_payment (lines 446-520): validate the wallet, append the ledger
record, then auto-complete a matching task when payfor names one. -/
def record_payment (wallet : String) (amount_paid : Nat) (tx_ref : String)
    (ts : Nat) (payfor : Option String) (s : StoreState) :
    Except String Unit × StoreState :=
  match decode_wallet_base58 wallet with
  | .error e => (.error e, s)
  | .ok _ =>
    let payment : PaymentRecord :=
      { wallet := wallet, amount_paid := amount_paid, tx_ref := tx_ref, ts := ts,
        payfor := payfor }
    let s1 := { s with payments := s.payments ++ [payment] }
    match payfor with
    | none => (.ok (), s1)
    | some payfor_str =>
      match findPayforTask s1 payfor_str with
      | none => (.ok (), s1)
      | some taskid =>
        let s2 :=
          if (alookup s1.user_tasks wallet).isSome then s1
          else (get_or_init_user_tasks wallet s1).2
        match alookup s2.user_tasks wallet with
        | none => (.ok (), s2)
        | some st =>
          let tasks := autoCompleteTask taskid ts st.tasks
          let st2 := { st with
            tasks := tasks
            total_unclaimed := compute_total_unclaimed tasks }
          (.ok (), { s2 with user_tasks := ainsert strLt s2.user_tasks wallet st2 })

/-- The completion walk of complete_task: find the first task with this
taskid; when its status is NotStarted or InProgress, complete it, pin the
registry reward and the evidence, and report success; a task in any other
status, or an absent taskid, reports failure. -/
def completeWalk (taskid : String) (evidence : Option String) (ts reward : Nat) :
    List UserTaskDetail → List UserTaskDetail × Bool
  | [] => ([], false)
  | t :: rest =>
    if t.taskid = taskid then
      if t.status = TaskStatus.NotStarted ∨ t.status = TaskStatus.InProgress then
        ({ t with
            status := TaskStatus.Completed
            completed_at := ts
            reward_amount := reward
            evidence := evidence } :: rest, true)
      else
        (t :: rest, false)
    else
      let r := completeWalk taskid evidence ts reward rest
      (t :: r.1, r.2)

/-- complete_task (lines 522-582). -/
def complete_task (wallet taskid : String) (evidence : Option String) (ts : Nat)
    (s : StoreState) : Except String Unit × StoreState :=
  match decode_wallet_base58 wallet with
  | .error e => (.error e, s)
  | .ok _ =>
    match alookup s.task_contract taskid with
    | none => (.error ("Task " ++ taskid ++ " not found in contract"), s)
    | some item =>
      let s1 :=
        if (alookup s.user_tasks wallet).isSome then s
        else (get_or_init_user_tasks wallet s).2
      match alookup s1.user_tasks wallet with
      | none => (.error ("User state not found for wallet " ++ wallet), s1)
      | some st =>
        let r := completeWalk taskid evidence ts item.reward st.tasks
        if ¬ r.2 then
          (.error ("Task " ++ taskid ++ " not found or already completed for wallet"), s1)
        else
          let st2 := { st with
            tasks := r.1
            total_unclaimed := compute_total_unclaimed r.1 }
          (.ok (), { s1 with user_tasks := ainsert strLt s1.user_tasks wallet st2 })

/-- Every (epoch, index, amount) triple stored for the wallet in the
epoch-wallet index, in iteration order. -/
def walletEpochs (s : StoreState) (wallet : String) : List (Nat × Nat × Nat) :=
  s.epoch_wallet_index.filterMap (fun p =>
    if p.1.wallet = wallet then some (p.1.epoch, p.2.1, p.2.2) else none)

/-- Stable insertion into a list sorted by epoch descending. -/
def insertByEpochDesc (e : Nat × Nat × Nat) : List (Nat × Nat × Nat) → List (Nat × Nat × Nat)
  | [] => [e]
  | x :: rest => if x.1 < e.1 then e :: x :: rest else x :: insertByEpochDesc e rest

/-- Stable sort by epoch descending, as the source's sort_by on the
reversed comparison. -/
def sortByEpochDesc : List (Nat × Nat × Nat) → List (Nat × Nat × Nat)
  | [] => []
  | x :: rest => insertByEpochDesc x (sortByEpochDesc rest)

/-- Does the stored state of this wallet hold any task whose status is
TicketIssued or Claimed?  (The single-outstanding-ticket gate.) -/
def hasOutstandingTicket (s : StoreState) (wallet : String) : Bool :=
  match alookup s.user_tasks wallet with
  | some st =>
    st.tasks.any (fun t =>
      t.status = TaskStatus.TicketIssued || t.status = TaskStatus.Claimed)
  | none => false

/-- Flip every RewardPrepared task to TicketIssued and recompute the total. -/
def issueState (st : UserTaskState) : UserTaskState :=
  let tasks := st.tasks.map (fun t =>
    if t.status = TaskStatus.RewardPrepared then { t with status := TaskStatus.TicketIssued } else t)
  { st with tasks := tasks, total_unclaimed := compute_total_unclaimed tasks }

/-- The fixed message of the single-outstanding-ticket gate. -/
def ticketAlreadyIssuedMsg : String := "Ticket already issued for this epoch"

/-- get_claim_ticket (lines 752-827): pick the highest epoch holding a leaf
for the wallet, refuse when any task is already TicketIssued or Claimed,
read the root, generate the proof, then mark RewardPrepared tasks as
TicketIssued. -/
def get_claim_ticket (wallet : String) (s : StoreState) :
    Except String ClaimTicket × StoreState :=
  match decode_wallet_base58 wallet with
  | .error e => (.error e, s)
  | .ok _ =>
    let epochs := walletEpochs s wallet
    if epochs.isEmpty then
      (.error "No claimable rewards found for this wallet", s)
    else
      let best := (sortByEpochDesc epochs).getD 0 (0, 0, 0)
      let epoch := best.1
      let index := best.2.1
      let amount := best.2.2
      if hasOutstandingTicket s wallet then
        (.error ticketAlreadyIssuedMsg, s)
      else
        match alookup s.epoch_meta epoch with
        | none => (.error ("Epoch " ++ toString epoch ++ " metadata not found"), s)
        | some meta =>
          match generate_merkle_proof s epoch index with
          | .error e => (.error e, s)
          | .ok proof =>
            let s2 :=
              match alookup s.user_tasks wallet with
              | some st => { s with user_tasks := ainsert strLt s.user_tasks wallet (issueState st) }
              | none => s
            (.ok { epoch := epoch, index := index, wallet := wallet, amount := amount,
                   proof := proof, root := meta.root }, s2)

/-- mark_claim_result (lines 887-932): on Success every TicketIssued task
becomes Claimed; on Failed every TicketIssued task reverts to
RewardPrepared; the cached total is recomputed in both branches. -/
def mark_claim_result (wallet : String) (epoch : Nat) (status : ClaimResultStatus)
    (tx_sig : Option String) (s : StoreState) : Except String Unit × StoreState :=
  match decode_wallet_base58 wallet with
  | .error e => (.error e, s)
  | .ok _ =>
    match alookup s.user_tasks wallet with
    | none => (.error ("User state not found for wallet " ++ wallet), s)
    | some st =>
      let tasks :=
        match status with
        | .Success =>
          st.tasks.map (fun t =>
            if t.status = TaskStatus.TicketIssued then { t with status := TaskStatus.Claimed } else t)
        | .Failed =>
          st.tasks.map (fun t =>
            if t.status = TaskStatus.TicketIssued then { t with status := TaskStatus.RewardPrepared } else t)
      let st2 := { st with tasks := tasks, total_unclaimed := compute_total_unclaimed tasks }
      (.ok (), { s with user_tasks := ainsert strLt s.user_tasks wallet st2 })

/-! ## Operation sequences -/

/-- One externally invoked operation of the module. -/
inductive Op where
  | opInitTasks (isController : Bool) (tasks : List TaskContractItem)
  | opGetOrInit (wallet : String)
  | opRecordPayment (wallet : String) (amount_paid : Nat) (tx_ref : String)
      (ts : Nat) (payfor : Option String)
  | opCompleteTask (wallet taskid : String) (evidence : Option String) (ts : Nat)
  | opBuildSnapshot (isController : Bool) (now epoch : Nat)
  | opGetTicket (wallet : String)
  | opMarkResult (wallet : String) (epoch : Nat) (status : ClaimResultStatus)
      (tx_sig : Option String)
deriving DecidableEq

/-- The store after one operation (results are discarded). -/
def applyOp (H : List Nat → MHash) (s : StoreState) : Op → StoreState
  | .opInitTasks c tasks => (init_task_contract c tasks s).2
  | .opGetOrInit w => (get_or_init_user_tasks w s).2
  | .opRecordPayment w a tx ts pf => (record_payment w a tx ts pf s).2
  | .opCompleteTask w tid ev ts => (complete_task w tid ev ts s).2
  | .opBuildSnapshot c now e => (build_epoch_snapshot H c now e s).2
  | .opGetTicket w => (get_claim_ticket w s).2
  | .opMarkResult w e st tx => (mark_claim_result w e st tx s).2

/-- The store after a sequence of operations, oldest first. -/
def execSeq (H : List Nat → MHash) (ops : List Op) (s : StoreState) : StoreState :=
  ops.foldl (applyOp H) s

/-! ## Specification-side definitions used by the theorem statements -/

/-- Sibling index: flip the lowest bit of the node index. -/
def sibIndex (i : Nat) : Nat := if i % 2 = 0 then i + 1 else i - 1

/-- Sibling hash within one layer: the node at the sibling index, or the
node itself when the sibling index falls past the end of the layer. -/
def sibOf (layer : List MHash) (i : Nat) : MHash :=
  if sibIndex i < layer.length then layer.getD (sibIndex i) zeroHash
  else layer.getD i zeroHash

/-- The proof a layer stack yields for a leaf index: one sibling hash per
layer below the root. -/
def pureProof : List (List MHash) → Nat → List MHash
  | [], _ => []
  | [_], _ => []
  | layer :: next :: rest, i => sibOf layer i :: pureProof (next :: rest) (i / 2)

/-- Total length of the first k layers. -/
def sumLens : List (List MHash) → Nat → Nat
  | _, 0 => 0
  | [], _ + 1 => 0
  | layer :: rest, k + 1 => layer.length + sumLens rest k

/-- The sum the spec promises for the cached total: reward_amount over the
tasks whose status is RewardPrepared or TicketIssued, as a u64 sum. -/
def specUnclaimedSum (tasks : List UserTaskDetail) : Nat :=
  ((tasks.filter (fun t =>
      t.status = TaskStatus.RewardPrepared ∨ t.status = TaskStatus.TicketIssued)).map
    (fun t => t.reward_amount)).sum % 2 ^ 64

/-- The cached-total invariant over the whole store. -/
def TotalsOK (s : StoreState) : Prop :=
  ∀ w st, alookup s.user_tasks w = some st →
    st.total_unclaimed = specUnclaimedSum st.tasks

/-- Position of a status along the lifecycle chain. -/
def statusRank : TaskStatus → Nat
  | .NotStarted => 0
  | .InProgress => 1
  | .Completed => 2
  | .RewardPrepared => 3
  | .TicketIssued => 4
  | .Claimed => 5

/-- A status change an operation is allowed to make on a stored task of
wallet w: no change, a forward move along the chain, or the single backward
edge TicketIssued to RewardPrepared taken by a reported claim failure. -/
def allowedStatusChange (op : Op) (w : String) (a b : TaskStatus) : Prop :=
  b = a ∨ statusRank a < statusRank b ∨
    (a = TaskStatus.TicketIssued ∧ b = TaskStatus.RewardPrepared ∧
      ∃ e tx, op = Op.opMarkResult w e ClaimResultStatus.Failed tx)

/-- Default task detail for out-of-range list reads in statements. -/
def dTask : UserTaskDetail :=
  { taskid := "", status := TaskStatus.NotStarted, completed_at := 0,
    reward_amount := 0, evidence := none }

/-- Number of Merkle layers stored for an epoch: offset entries whose key
names the epoch. -/
def countStoredLayers (s : StoreState) (epoch : Nat) : Nat :=
  (s.epoch_layer_offsets.filter (fun p => p.1.epoch = epoch)).length

/-- A concrete digest function for the closed witness scenarios (the
theorems hold for every digest function). -/
def cH : List Nat → MHash :=
  fun l => (List.range 32).map (fun k => (l.length * 31 + k * 7 + l.sum) % 256)

/-- A concrete valid wallet: 32 characters of value one decode to the
32-byte zero key. -/
def cW1 : String := "11111111111111111111111111111111"

/-- A second concrete valid wallet. -/
def cW2 : String := "1111111111111111111111111111111o"

/-- A third concrete valid wallet. -/
def cW3 : String := "1111111111111111111111111111111z"

/-! # Theorems

## Byte-wise comparison and parent-hash symmetry -/

theorem lexLe_total : ∀ a b : List Nat, lexLe a b = true ∨ lexLe b a = true
  | [], _ => by left; rfl
  | _ :: _, [] => by right; rfl
  | a :: as_, b :: bs => by
    by_cases hab : a < b
    · left; simp [lexLe, hab]
    · by_cases hba : b < a
      · right; simp [lexLe, hba, hab]
      · have he : a = b := Nat.le_antisymm (Nat.not_lt.mp hba) (Nat.not_lt.mp hab)
        subst he
        rcases lexLe_total as_ bs with h | h
        · left; simpa [lexLe] using h
        · right; simpa [lexLe] using h

theorem lexLe_antisymm : ∀ a b : List Nat, lexLe a b = true → lexLe b a = true → a = b
  | [], [], _, _ => rfl
  | [], _ :: _, _, h => by simp [lexLe] at h
  | _ :: _, [], h, _ => by simp [lexLe] at h
  | a :: as_, b :: bs, h1, h2 => by
    by_cases hab : a < b
    · simp [lexLe, hab, Nat.lt_asymm hab, Nat.ne_of_gt hab] at h2
    · by_cases hba : b < a
      · simp [lexLe, hba, hab] at h1
      · have he : a = b := Nat.le_antisymm (Nat.not_lt.mp hba) (Nat.not_lt.mp hab)
        subst he
        simp only [lexLe, Nat.lt_irrefl, if_false] at h1 h2
        rw [lexLe_antisymm as_ bs h1 h2]

theorem compute_parent_hash_comm (H : List Nat → MHash) (a b : MHash) :
    compute_parent_hash H a b = compute_parent_hash H b a := by
  unfold compute_parent_hash
  by_cases hab : lexLe a b = true
  · by_cases hba : lexLe b a = true
    · have : a = b := lexLe_antisymm a b hab hba
      subst this; rfl
    · simp [hab, hba]
  · rcases lexLe_total a b with h | h
    · exact absurd h hab
    · simp [hab, h]

/-! ## Layer construction -/

theorem nextLayer_length (H : List Nat → MHash) :
    ∀ L : List MHash, (nextLayer H L).length = (L.length + 1) / 2
  | [] => by simp [nextLayer]
  | [_] => by simp [nextLayer]
  | _ :: _ :: rest => by
    have ih := nextLayer_length H rest
    simp only [nextLayer, List.length_cons, ih]
    omega

theorem buildLayersFuel_step (H : List Nat → MHash) (g : Nat) (L : List MHash)
    (h : 1 < L.length) :
    buildLayersFuel H (g + 1) L = L :: buildLayersFuel H g (nextLayer H L) := by
  simp [buildLayersFuel, h]

theorem buildLayersFuel_stop (H : List Nat → MHash) (f : Nat) (L : List MHash)
    (h : ¬ 1 < L.length) : buildLayersFuel H f L = [L] := by
  cases f <;> simp [buildLayersFuel, h]

theorem buildLayersFuel_congr (H : List Nat → MHash) :
    ∀ f L, L.length ≤ f → buildLayersFuel H f L = buildLayersFuel H L.length L := by
  intro f
  induction f using Nat.strong_induction_on with
  | _ f ih =>
    intro L hf
    by_cases hlen : 1 < L.length
    · obtain ⟨m, hm⟩ : ∃ m, L.length = m + 2 := ⟨L.length - 2, by omega⟩
      obtain ⟨g, hg⟩ : ∃ g, f = g + 1 := ⟨f - 1, by omega⟩
      have hnl : (nextLayer H L).length = (L.length + 1) / 2 := nextLayer_length H L
      subst hg
      rw [buildLayersFuel_step H g L hlen, hm, buildLayersFuel_step H (m + 1) L hlen,
        ih g (by omega) (nextLayer H L) (by omega),
        ih (m + 1) (by omega) (nextLayer H L) (by omega)]
    · rw [buildLayersFuel_stop H f L hlen, buildLayersFuel_stop H L.length L hlen]

/-- The layer stack satisfies the natural recursion: a layer of length
above one is followed by the stack built on its parent layer. -/
theorem buildLayers_eq (H : List Nat → MHash) (L : List MHash) :
    buildLayers H L =
      if 1 < L.length then L :: buildLayers H (nextLayer H L) else [L] := by
  by_cases hlen : 1 < L.length
  · obtain ⟨m, hm⟩ : ∃ m, L.length = m + 2 := ⟨L.length - 2, by omega⟩
    have hnl : (nextLayer H L).length = (L.length + 1) / 2 := nextLayer_length H L
    simp only [hlen, if_true]
    show buildLayersFuel H L.length L = _
    rw [hm, buildLayersFuel_step H (m + 1) L hlen]
    rw [buildLayersFuel_congr H (m + 1) (nextLayer H L) (by omega)]
    rfl
  · simp only [hlen, if_false]
    exact buildLayersFuel_stop H L.length L hlen

theorem buildLayers_ne_nil (H : List Nat → MHash) (L : List MHash) :
    buildLayers H L ≠ [] := by
  rw [buildLayers_eq]
  by_cases h : 1 < L.length <;> simp [h]

theorem buildLayers_head (H : List Nat → MHash) (L : List MHash) :
    (buildLayers H L).getD 0 [] = L := by
  rw [buildLayers_eq]
  by_cases h : 1 < L.length <;> simp [h]

theorem getLastD_irrel {α : Type} : ∀ (t : List α) (y d1 d2 : α),
    (y :: t).getLastD d1 = (y :: t).getLastD d2
  | [], _, _, _ => rfl
  | z :: t, y, d1, d2 => getLastD_irrel t z d1 d2

theorem rootOf_cons_cons (x y : List MHash) (t : List (List MHash)) :
    rootOf (x :: y :: t) = rootOf (y :: t) := by
  unfold rootOf
  have : (x :: y :: t).getLastD [] = (y :: t).getLastD x := rfl
  rw [this, getLastD_irrel t y x []]

theorem sibIndex_add_two (j : Nat) : sibIndex (j + 2) = sibIndex j + 2 := by
  unfold sibIndex
  rcases Nat.even_or_odd j with h | h
  · have h0 : j % 2 = 0 := Nat.even_iff.mp h
    have h2 : (j + 2) % 2 = 0 := by omega
    simp [h0, h2]
  · have h0 : j % 2 = 1 := Nat.odd_iff.mp h
    have h2 : (j + 2) % 2 = 1 := by omega
    simp [h0, h2]
    omega

/-- Its parent combines a node with its sibling hash: the central step of
inclusion-proof correctness. -/
theorem parent_sib (H : List Nat → MHash) :
    ∀ (L : List MHash) (i : Nat), i < L.length →
      compute_parent_hash H (L.getD i zeroHash) (sibOf L i)
        = (nextLayer H L).getD (i / 2) zeroHash
  | [], i, hi => by simp at hi
  | [a], i, hi => by
    have hi0 : i = 0 := by simpa using Nat.lt_one_iff.mp (by simpa using hi)
    subst hi0
    simp [sibOf, sibIndex, nextLayer]
  | a :: b :: rest, i, hi => by
    match i with
    | 0 =>
      simp [sibOf, sibIndex, nextLayer]
    | 1 =>
      have : sibIndex 1 = 0 := by simp [sibIndex]
      simp [sibOf, this, nextLayer, compute_parent_hash_comm H b a]
    | j + 2 =>
      have hj : j < rest.length := by simpa using hi
      have ih := parent_sib H rest j hj
      have hsib : sibOf (a :: b :: rest) (j + 2) = sibOf rest j := by
        unfold sibOf
        rw [sibIndex_add_two]
        by_cases hc : sibIndex j < rest.length
        · have : sibIndex j + 2 < (a :: b :: rest).length := by simp; omega
          simp only [this, if_true, hc, if_true]
          rfl
        · have : ¬ sibIndex j + 2 < (a :: b :: rest).length := by simp; omega
          simp only [this, if_false, hc, if_false]
          rfl
      have hdiv : (j + 2) / 2 = j / 2 + 1 := by omega
      rw [hsib, hdiv]
      have hL : (a :: b :: rest).getD (j + 2) zeroHash = rest.getD j zeroHash := rfl
      have hN : (nextLayer H (a :: b :: rest)).getD (j / 2 + 1) zeroHash
          = (nextLayer H rest).getD (j / 2) zeroHash := rfl
      rw [hL, hN, ih]

/-- Folding the generated sibling hashes onto a leaf reproduces the root of
the layer stack. -/
theorem fold_pureProof (H : List Nat → MHash) :
    ∀ (L : List MHash), L ≠ [] → ∀ i, i < L.length →
      (pureProof (buildLayers H L) i).foldl (compute_parent_hash H)
          (L.getD i zeroHash)
        = rootOf (buildLayers H L) := by
  suffices hgen : ∀ n (L : List MHash), L.length = n → L ≠ [] → ∀ i, i < L.length →
      (pureProof (buildLayers H L) i).foldl (compute_parent_hash H) (L.getD i zeroHash)
        = rootOf (buildLayers H L) by
    exact fun L hne i hi => hgen L.length L rfl hne i hi
  intro n
  induction n using Nat.strong_induction_on with
  | _ n ih =>
    intro L hn hne i hi
    rw [buildLayers_eq]
    by_cases hlen : 1 < L.length
    · simp only [hlen, if_true]
      obtain ⟨M, rest2, hMr⟩ : ∃ M rest2, buildLayers H (nextLayer H L) = M :: rest2 := by
        rcases hbl : buildLayers H (nextLayer H L) with _ | ⟨M, rest2⟩
        · exact absurd hbl (buildLayers_ne_nil H (nextLayer H L))
        · exact ⟨M, rest2, rfl⟩
      rw [hMr]
      show (sibOf L i :: pureProof (M :: rest2) (i / 2)).foldl (compute_parent_hash H)
          (L.getD i zeroHash) = rootOf (L :: M :: rest2)
      rw [List.foldl_cons, rootOf_cons_cons]
      have hnl : (nextLayer H L).length = (L.length + 1) / 2 := nextLayer_length H L
      have hne2 : nextLayer H L ≠ [] := by
        intro h0
        rw [h0] at hnl
        simp at hnl
        omega
      have hi2 : i / 2 < (nextLayer H L).length := by omega
      have hfold := ih (nextLayer H L).length (by omega) (nextLayer H L) rfl hne2 (i / 2) hi2
      rw [hMr] at hfold
      rw [parent_sib H L i hi, hfold]
    · simp only [hlen, if_false]
      have hi0 : i = 0 := by omega
      subst hi0
      simp [pureProof, rootOf, List.getLastD]

/-- The generated proof holds one hash per layer below the root. -/
theorem pureProof_length : ∀ (LS : List (List MHash)) (i : Nat),
    (pureProof LS i).length = LS.length - 1
  | [], _ => rfl
  | [_], _ => rfl
  | _ :: next :: rest, i => by
    have ih := pureProof_length (next :: rest) (i / 2)
    simp only [pureProof, List.length_cons, ih]
    simp

/-- Every proof entry is drawn from the stored layer of its step; the root
layer is never read. -/
theorem pureProof_mem :
    ∀ (LS : List (List MHash)) (i : Nat),
      (∀ j, j + 1 < LS.length →
        (LS.getD (j + 1) []).length = ((LS.getD j []).length + 1) / 2) →
      i < (LS.getD 0 []).length →
      ∀ k, k < (pureProof LS i).length →
        (pureProof LS i).getD k zeroHash ∈ LS.getD k []
  | [], _, _, _, _, hk => by simp [pureProof] at hk
  | [_], _, _, _, _, hk => by simp [pureProof] at hk
  | L :: next :: rest, i, hchain, hi, k, hk => by
    match k with
    | 0 =>
      show sibOf L i ∈ L
      unfold sibOf
      by_cases hc : sibIndex i < L.length
      · simp only [hc, if_true]
        rw [List.getD_eq_getElem L zeroHash hc]
        exact List.getElem_mem hc
      · have hiL : i < L.length := hi
        simp only [hc, if_false]
        rw [List.getD_eq_getElem L zeroHash hiL]
        exact List.getElem_mem hiL
    | k + 1 =>
      have hchain2 : ∀ j, j + 1 < (next :: rest).length →
          ((next :: rest).getD (j + 1) []).length
            = (((next :: rest).getD j []).length + 1) / 2 := by
        intro j hj
        have := hchain (j + 1) (by simpa using Nat.succ_lt_succ hj)
        exact this
      have hlen2 : (next).length = (L.length + 1) / 2 := by
        have := hchain 0 (by simp)
        simpa using this
      have hi2 : i / 2 < ((next :: rest).getD 0 []).length := by
        simp only [List.getD_cons_zero]
        have hiL : i < L.length := hi
        omega
      have hk2 : k < (pureProof (next :: rest) (i / 2)).length := by
        simpa [pureProof] using hk
      have := pureProof_mem (next :: rest) (i / 2) hchain2 hi2 k hk2
      simpa [pureProof] using this

/-- Consecutive built layers shrink by the pairing rule. -/
theorem buildLayers_len_chain (H : List Nat → MHash) :
    ∀ (L : List MHash) (j : Nat), j + 1 < (buildLayers H L).length →
      ((buildLayers H L).getD (j + 1) []).length
        = (((buildLayers H L).getD j []).length + 1) / 2 := by
  suffices hgen : ∀ n (L : List MHash), L.length = n → ∀ j, j + 1 < (buildLayers H L).length →
      ((buildLayers H L).getD (j + 1) []).length
        = (((buildLayers H L).getD j []).length + 1) / 2 by
    exact fun L j hj => hgen L.length L rfl j hj
  intro n
  induction n using Nat.strong_induction_on with
  | _ n ih =>
    intro L hn j hj
    rw [buildLayers_eq]
    by_cases hlen : 1 < L.length
    · simp only [hlen, if_true]
      match j with
      | 0 =>
        have : (buildLayers H (nextLayer H L)).getD 0 [] = nextLayer H L :=
          buildLayers_head H (nextLayer H L)
        show ((buildLayers H (nextLayer H L)).getD 0 []).length = (L.length + 1) / 2
        rw [this, nextLayer_length H L]
      | j + 1 =>
        have hnl : (nextLayer H L).length = (L.length + 1) / 2 := nextLayer_length H L
        have hj2 : j + 1 < (buildLayers H (nextLayer H L)).length := by
          rw [buildLayers_eq] at hj
          simpa [hlen] using hj
        have := ih (nextLayer H L).length (by omega) (nextLayer H L) rfl j hj2
        simpa using this
    · rw [buildLayers_eq] at hj
      simp [hlen] at hj

/-! ## Association-list store lemmas -/

theorem alookup_ainsert_self {K V : Type} [DecidableEq K] (lt : K → K → Bool) :
    ∀ (l : List (K × V)) (k : K) (v : V), alookup (ainsert lt l k v) k = some v
  | [], k, v => by simp [ainsert, alookup]
  | (k', v') :: rest, k, v => by
    by_cases he : k = k'
    · simp [ainsert, he, alookup]
    · by_cases hl : lt k k' = true
      · simp [ainsert, he, hl, alookup]
      · simp only [ainsert, he, if_false, hl, if_false]
        simp [alookup, he, alookup_ainsert_self lt rest k v]

theorem alookup_ainsert_ne {K V : Type} [DecidableEq K] (lt : K → K → Bool) :
    ∀ (l : List (K × V)) (k : K) (v : V) (k2 : K), k2 ≠ k →
      alookup (ainsert lt l k v) k2 = alookup l k2
  | [], k, v, k2, hne => by simp [ainsert, alookup, hne]
  | (k', v') :: rest, k, v, k2, hne => by
    by_cases he : k = k'
    · subst he
      simp [ainsert, alookup, hne]
    · by_cases hl : lt k k' = true
      · simp [ainsert, he, hl, alookup, hne]
      · simp only [ainsert, he, if_false, hl, if_false]
        by_cases h2 : k2 = k'
        · simp [alookup, h2]
        · simp [alookup, h2, alookup_ainsert_ne lt rest k v k2 hne]

theorem alookup_none_iff {K V : Type} [DecidableEq K] :
    ∀ (l : List (K × V)) (k : K), alookup l k = none ↔ ∀ p ∈ l, p.1 ≠ k
  | [], k => by simp [alookup]
  | (k', v') :: rest, k => by
    by_cases he : k = k'
    · subst he
      simp [alookup]
    · simp only [alookup, he, if_false, List.mem_cons]
      rw [alookup_none_iff rest k]
      constructor
      · rintro h p (hp | hp)
        · subst hp; exact fun hc => he hc.symm
        · exact h p hp
      · intro h p hp
        exact h p (Or.inr hp)

theorem ainsert_perm {K V : Type} [DecidableEq K] (lt : K → K → Bool) :
    ∀ (l : List (K × V)) (k : K) (v : V), alookup l k = none →
      List.Perm (ainsert lt l k v) ((k, v) :: l)
  | [], k, v, _ => by simp [ainsert]
  | (k', v') :: rest, k, v, h => by
    by_cases he : k = k'
    · subst he
      simp [alookup] at h
    · by_cases hl : lt k k' = true
      · simp [ainsert, he, hl]
      · simp only [ainsert, he, if_false, hl, if_false]
        have hrest : alookup rest k = none := by
          simpa [alookup, he] using h
        exact ((ainsert_perm lt rest k v hrest).cons (k', v')).trans
          (List.Perm.swap (k, v) (k', v') rest)

/-! ## Flat hash arena indexing -/

theorem flatten_getD :
    ∀ (LS : List (List MHash)) (lid j : Nat), lid < LS.length →
      j < (LS.getD lid []).length →
      LS.flatten[sumLens LS lid + j]? = some ((LS.getD lid []).getD j zeroHash)
  | [], lid, _, hlid, _ => by simp at hlid
  | L :: rest, 0, j, _, hj => by
    have hj0 : j < L.length := by simpa using hj
    show (L ++ rest.flatten)[0 + j]? = _
    rw [Nat.zero_add, List.getElem?_append, if_pos hj0]
    simp [List.getElem?_eq_getElem hj0, List.getD_eq_getElem L zeroHash hj0]
  | L :: rest, lid + 1, j, hlid, hj => by
    have hlid2 : lid < rest.length := by simpa using hlid
    have hj2 : j < (rest.getD lid []).length := by simpa using hj
    show (L ++ rest.flatten)[L.length + sumLens rest lid + j]? = _
    rw [show L.length + sumLens rest lid + j = L.length + (sumLens rest lid + j) by omega,
      List.getElem?_append_right (by omega)]
    simp only [Nat.add_sub_cancel_left]
    rw [flatten_getD rest lid j hlid2 hj2]
    rfl

/-! ## Layer-offset bookkeeping -/

theorem storeOffsets_frame (e : Nat) :
    ∀ (LS : List (List MHash)) (b l0 : Nat) (m : List (EpochLayerKey × LayerOffset))
      (k : EpochLayerKey), (k.epoch ≠ e ∨ k.layer_id < l0) →
      alookup (storeOffsets e b l0 LS m) k = alookup m k
  | [], _, _, _, _, _ => rfl
  | L :: rest, b, l0, m, k, hk => by
    show alookup (storeOffsets e (b + L.length) (l0 + 1) rest
      (ainsert elkLt m ⟨e, l0⟩ ⟨b, L.length⟩)) k = alookup m k
    rw [storeOffsets_frame e rest (b + L.length) (l0 + 1) _ k
        (by
          rcases hk with h | h
          · exact Or.inl h
          · exact Or.inr (by omega))]
    have hne : k ≠ ⟨e, l0⟩ := by
      rcases hk with h | h
      · intro hc; exact h (by rw [hc])
      · intro hc; rw [hc] at h; simp at h
    exact alookup_ainsert_ne elkLt m ⟨e, l0⟩ ⟨b, L.length⟩ k hne

theorem storeOffsets_lookup (e : Nat) :
    ∀ (LS : List (List MHash)) (b l0 : Nat) (m : List (EpochLayerKey × LayerOffset))
      (kk : Nat), kk < LS.length →
      alookup (storeOffsets e b l0 LS m) ⟨e, l0 + kk⟩
        = some ⟨b + sumLens LS kk, (LS.getD kk []).length⟩
  | [], _, _, _, kk, hkk => by simp at hkk
  | L :: rest, b, l0, m, 0, _ => by
    show alookup (storeOffsets e (b + L.length) (l0 + 1) rest
      (ainsert elkLt m ⟨e, l0⟩ ⟨b, L.length⟩)) ⟨e, l0 + 0⟩ = _
    rw [storeOffsets_frame e rest (b + L.length) (l0 + 1) _ ⟨e, l0 + 0⟩
        (Or.inr (by simp))]
    simpa [sumLens] using alookup_ainsert_self elkLt m ⟨e, l0⟩ ⟨b, L.length⟩
  | L :: rest, b, l0, m, kk + 1, hkk => by
    have hkk2 : kk < rest.length := by simpa using hkk
    show alookup (storeOffsets e (b + L.length) (l0 + 1) rest
      (ainsert elkLt m ⟨e, l0⟩ ⟨b, L.length⟩)) ⟨e, l0 + (kk + 1)⟩ = _
    rw [show l0 + (kk + 1) = (l0 + 1) + kk by omega,
      storeOffsets_lookup e rest (b + L.length) (l0 + 1) _ kk hkk2]
    simp only [show sumLens (L :: rest) (kk + 1) = L.length + sumLens rest kk from rfl,
      show (L :: rest).getD (kk + 1) [] = rest.getD kk [] from rfl, Nat.add_assoc]

/-! ## Stored-layer maximum and count -/

theorem maxLayerOf_init (e : Nat) :
    ∀ (m : List (EpochLayerKey × LayerOffset)) (a : Nat),
      m.foldl (fun mx p => if p.1.epoch = e ∧ mx < p.1.layer_id then p.1.layer_id else mx) a
        = Nat.max a (maxLayerOf m e)
  | [], a => by simp [maxLayerOf]
  | p :: rest, a => by
    have hf : ∀ (x : Nat),
        (if p.1.epoch = e ∧ x < p.1.layer_id then p.1.layer_id else x)
          = Nat.max x (if p.1.epoch = e then p.1.layer_id else 0) := by
      intro x
      by_cases h : p.1.epoch = e
      · by_cases h2 : x < p.1.layer_id <;> simp [h, h2] <;> omega
      · simp [h]
    show List.foldl _ _ rest = Nat.max a (maxLayerOf (p :: rest) e)
    have h1 := maxLayerOf_init e rest
      (if p.1.epoch = e ∧ a < p.1.layer_id then p.1.layer_id else a)
    have h2 : maxLayerOf (p :: rest) e = List.foldl
        (fun mx p => if p.1.epoch = e ∧ mx < p.1.layer_id then p.1.layer_id else mx)
        (if p.1.epoch = e ∧ 0 < p.1.layer_id then p.1.layer_id else 0) rest := rfl
    have h3 := maxLayerOf_init e rest
      (if p.1.epoch = e ∧ 0 < p.1.layer_id then p.1.layer_id else 0)
    rw [h1, h2, h3]
    simp only [hf]
    simp only [Nat.max_def]
    split_ifs <;> omega

theorem maxLayerOf_cons (e : Nat) (p : EpochLayerKey × LayerOffset)
    (m : List (EpochLayerKey × LayerOffset)) :
    maxLayerOf (p :: m) e
      = Nat.max (if p.1.epoch = e then p.1.layer_id else 0) (maxLayerOf m e) := by
  show List.foldl _ _ m = _
  rw [maxLayerOf_init e m]
  congr 1
  by_cases h : p.1.epoch = e
  · by_cases h2 : (0 : Nat) < p.1.layer_id <;> simp [h, h2] <;> omega
  · simp [h]

theorem maxLayerOf_perm (e : Nat) {m1 m2 : List (EpochLayerKey × LayerOffset)}
    (hp : List.Perm m1 m2) : maxLayerOf m1 e = maxLayerOf m2 e := by
  unfold maxLayerOf
  haveI : RightCommutative
      (fun mx (p : EpochLayerKey × LayerOffset) =>
        if p.1.epoch = e ∧ mx < p.1.layer_id then p.1.layer_id else mx) := by
    constructor
    intro b p q
    have hf : ∀ (x : Nat) (r : EpochLayerKey × LayerOffset),
        (if r.1.epoch = e ∧ x < r.1.layer_id then r.1.layer_id else x)
          = Nat.max x (if r.1.epoch = e then r.1.layer_id else 0) := by
      intro x r
      by_cases h : r.1.epoch = e
      · by_cases h2 : x < r.1.layer_id <;> simp [h, h2] <;> omega
      · simp [h]
    simp only [hf]
    simp only [Nat.max_def]
    split_ifs <;> omega
  exact hp.foldl_eq 0

theorem maxLayerOf_no_match (e : Nat) :
    ∀ (m : List (EpochLayerKey × LayerOffset)), (∀ p ∈ m, p.1.epoch ≠ e) →
      maxLayerOf m e = 0
  | [], _ => rfl
  | p :: rest, h => by
    rw [maxLayerOf_cons, maxLayerOf_no_match e rest (fun q hq => h q (List.mem_cons_of_mem p hq))]
    simp [h p (List.mem_cons_self p rest)]

theorem maxLayerOf_storeOffsets (e : Nat) :
    ∀ (LS : List (List MHash)) (b l0 : Nat) (m : List (EpochLayerKey × LayerOffset)),
      (∀ lid, l0 ≤ lid → alookup m ⟨e, lid⟩ = none) → LS ≠ [] →
      maxLayerOf (storeOffsets e b l0 LS m) e
        = Nat.max (l0 + LS.length - 1) (maxLayerOf m e)
  | [], _, _, _, _, hne => absurd rfl hne
  | [L], b, l0, m, hnone, _ => by
    show maxLayerOf (ainsert elkLt m ⟨e, l0⟩ ⟨b, L.length⟩) e = _
    rw [maxLayerOf_perm e (ainsert_perm elkLt m ⟨e, l0⟩ ⟨b, L.length⟩ (hnone l0 (Nat.le_refl l0))),
      maxLayerOf_cons]
    simp
  | L :: L2 :: rest, b, l0, m, hnone, _ => by
    have hm2 : ∀ lid, l0 + 1 ≤ lid →
        alookup (ainsert elkLt m ⟨e, l0⟩ ⟨b, L.length⟩) ⟨e, lid⟩ = none := by
      intro lid hlid
      rw [alookup_ainsert_ne elkLt m ⟨e, l0⟩ ⟨b, L.length⟩ ⟨e, lid⟩
        (by intro hc; simp [EpochLayerKey.mk.injEq] at hc; omega)]
      exact hnone lid (by omega)
    show maxLayerOf (storeOffsets e (b + L.length) (l0 + 1) (L2 :: rest)
      (ainsert elkLt m ⟨e, l0⟩ ⟨b, L.length⟩)) e = _
    rw [maxLayerOf_storeOffsets e (L2 :: rest) (b + L.length) (l0 + 1) _ hm2 (by simp),
      maxLayerOf_perm e (ainsert_perm elkLt m ⟨e, l0⟩ ⟨b, L.length⟩ (hnone l0 (Nat.le_refl l0))),
      maxLayerOf_cons]
    simp only [List.length_cons, if_true]
    simp only [Nat.max_def]
    split_ifs <;> omega

theorem countMatching_ainsert (e : Nat) (m : List (EpochLayerKey × LayerOffset))
    (k : EpochLayerKey) (v : LayerOffset) (h : alookup m k = none) :
    ((ainsert elkLt m k v).filter (fun p => p.1.epoch = e)).length
      = (if k.epoch = e then 1 else 0) + (m.filter (fun p => p.1.epoch = e)).length := by
  rw [((ainsert_perm elkLt m k v h).filter (fun p => decide (p.1.epoch = e))).length_eq]
  by_cases hk : k.epoch = e <;> simp [List.filter, hk] <;> omega

theorem countMatching_storeOffsets (e : Nat) :
    ∀ (LS : List (List MHash)) (b l0 : Nat) (m : List (EpochLayerKey × LayerOffset)),
      (∀ lid, l0 ≤ lid → alookup m ⟨e, lid⟩ = none) →
      ((storeOffsets e b l0 LS m).filter (fun p => p.1.epoch = e)).length
        = LS.length + (m.filter (fun p => p.1.epoch = e)).length
  | [], _, _, _, _ => by simp [storeOffsets]
  | L :: rest, b, l0, m, hnone => by
    have hm2 : ∀ lid, l0 + 1 ≤ lid →
        alookup (ainsert elkLt m ⟨e, l0⟩ ⟨b, L.length⟩) ⟨e, lid⟩ = none := by
      intro lid hlid
      rw [alookup_ainsert_ne elkLt m ⟨e, l0⟩ ⟨b, L.length⟩ ⟨e, lid⟩
        (by intro hc; simp [EpochLayerKey.mk.injEq] at hc; omega)]
      exact hnone lid (by omega)
    show ((storeOffsets e (b + L.length) (l0 + 1) rest
      (ainsert elkLt m ⟨e, l0⟩ ⟨b, L.length⟩)).filter (fun p => p.1.epoch = e)).length = _
    rw [countMatching_storeOffsets e rest (b + L.length) (l0 + 1) _ hm2,
      countMatching_ainsert e m ⟨e, l0⟩ ⟨b, L.length⟩ (hnone l0 (Nat.le_refl l0))]
    rw [if_pos (show (⟨e, l0⟩ : EpochLayerKey).epoch = e from rfl)]
    simp only [List.length_cons]
    omega

/-! ## From the stored arena back to the layer stack -/

theorem genProofAux_ok (ofs : List (EpochLayerKey × LayerOffset)) (flat : List MHash)
    (e : Nat) :
    ∀ (LS : List (List MHash)) (l0 base cur : Nat),
      (∀ k, k < LS.length →
        alookup ofs ⟨e, l0 + k⟩ = some ⟨base + sumLens LS k, (LS.getD k []).length⟩) →
      (∀ k j, k < LS.length → j < (LS.getD k []).length →
        flat[base + sumLens LS k + j]? = some ((LS.getD k []).getD j zeroHash)) →
      (∀ k, k + 1 < LS.length →
        (LS.getD (k + 1) []).length = ((LS.getD k []).length + 1) / 2) →
      cur < (LS.getD 0 []).length →
      genProofAux ofs flat e (List.range' l0 (LS.length - 1)) cur = .ok (pureProof LS cur)
  | [], _, _, cur, _, _, _, _ => by simp [pureProof, genProofAux, List.range']
  | [L], _, _, cur, _, _, _, _ => by simp [pureProof, genProofAux, List.range']
  | L :: L2 :: rest, l0, base, cur, hofs, hflat, hchain, hcur => by
    have hL2 : L2.length = (L.length + 1) / 2 := by
      have := hchain 0 (by simp)
      simpa using this
    have hcurL : cur < L.length := by simpa using hcur
    have hofs0 : alookup ofs ⟨e, l0⟩ = some ⟨base, L.length⟩ := by
      have := hofs 0 (by simp)
      simpa [sumLens] using this
    have hsibread : ∀ idx, idx < L.length → flat[base + idx]? = some (L.getD idx zeroHash) := by
      intro idx hidx
      have := hflat 0 idx (by simp) (by simpa using hidx)
      simpa [sumLens] using this
    have hrec : genProofAux ofs flat e (List.range' (l0 + 1) ((L2 :: rest).length - 1)) (cur / 2)
        = .ok (pureProof (L2 :: rest) (cur / 2)) := by
      apply genProofAux_ok ofs flat e (L2 :: rest) (l0 + 1) (base + L.length) (cur / 2)
      · intro k hk
        have hh := hofs (k + 1) (by simpa using Nat.succ_lt_succ hk)
        rw [show l0 + (k + 1) = l0 + 1 + k by omega] at hh
        rw [hh]
        simp only [show sumLens (L :: L2 :: rest) (k + 1) = L.length + sumLens (L2 :: rest) k
            from rfl,
          show (L :: L2 :: rest).getD (k + 1) [] = (L2 :: rest).getD k [] from rfl]
        congr 2
        omega
      · intro k j hk hj
        have hh := hflat (k + 1) j (by simpa using Nat.succ_lt_succ hk) (by simpa using hj)
        rw [show base + sumLens (L :: L2 :: rest) (k + 1) + j
            = base + L.length + sumLens (L2 :: rest) k + j by
          simp only [show sumLens (L :: L2 :: rest) (k + 1)
              = L.length + sumLens (L2 :: rest) k from rfl]
          omega] at hh
        simpa using hh
      · intro k hk
        have hh := hchain (k + 1) (by simpa using Nat.succ_lt_succ hk)
        simpa using hh
      · simp only [List.getD_cons_zero]
        omega
    show genProofAux ofs flat e (List.range' l0 ((L :: L2 :: rest).length - 1)) cur = _
    rw [show (L :: L2 :: rest).length - 1 = ((L2 :: rest).length - 1) + 1 by simp,
      show List.range' l0 (((L2 :: rest).length - 1) + 1)
          = l0 :: List.range' (l0 + 1) ((L2 :: rest).length - 1) from List.range'_succ _ _ _]
    simp only [genProofAux]
    rw [show (if cur % 2 = 0 then cur + 1 else cur - 1) = sibIndex cur from rfl, hofs0]
    by_cases hs : sibIndex cur < L.length
    · simp only [if_pos hs]
      rw [hsibread (sibIndex cur) hs, hrec]
      simp [pureProof, sibOf, hs]
    · simp only [if_neg hs]
      rw [hsibread cur hcurL, hrec]
      simp [pureProof, sibOf, hs]

theorem buildLeaves_length (H : List Nat → MHash) :
    ∀ (es : List ClaimEntry) (ls : List MHash),
      buildLeaves H es = .ok ls → ls.length = es.length
  | [], ls, h => by
    simp only [buildLeaves] at h
    cases h
    rfl
  | e :: rest, ls, h => by
    simp only [buildLeaves] at h
    cases hd : decode_wallet_base58 e.wallet with
    | error err => rw [hd] at h; cases h
    | ok wb =>
      rw [hd] at h
      cases ht : buildLeaves H rest with
      | error err => rw [ht] at h; cases h
      | ok tail =>
        rw [ht] at h
        cases h
        have := buildLeaves_length H rest tail ht
        simp [this]

/-- Inversion of a successful snapshot build: what the store looks like
afterwards. -/
theorem build_ok_inv (H : List Nat → MHash) (now epoch : Nat) (s : StoreState)
    (meta : MerkleSnapshotMeta) (s2 : StoreState)
    (hb : build_epoch_snapshot H true now epoch s = (.ok meta, s2)) :
    ∃ leaves, snapshotEntries s epoch ≠ [] ∧
      buildLeaves H (snapshotEntries s epoch) = .ok leaves ∧
      meta.root = rootOf (buildLayers H leaves) ∧
      meta.leaves_count = (snapshotEntries s epoch).length ∧
      s2.epoch_layers = s.epoch_layers ++ (buildLayers H leaves).flatten ∧
      s2.epoch_layer_offsets
        = storeOffsets epoch s.epoch_layers.length 0 (buildLayers H leaves)
            s.epoch_layer_offsets := by
  unfold build_epoch_snapshot at hb
  simp only [not_true, if_false] at hb
  split at hb
  · cases hb
  · split at hb
    · cases hb
    · split at hb
      · cases hb
      · rename_i hne hleaves
        refine ⟨_, ?_, hleaves, ?_, ?_, ?_, ?_⟩
        · intro hnil
          rename_i hempty _
          exact hempty (by simp [hnil])
        · rw [Prod.mk.injEq] at hb
          obtain ⟨h1, h2⟩ := hb
          cases h1
          rfl
        · rw [Prod.mk.injEq] at hb
          obtain ⟨h1, h2⟩ := hb
          cases h1
          rfl
        · rw [Prod.mk.injEq] at hb
          obtain ⟨h1, h2⟩ := hb
          subst h2
          rfl
        · rw [Prod.mk.injEq] at hb
          obtain ⟨h1, h2⟩ := hb
          subst h2
          rfl

/-- Everything proof generation needs about a freshly built epoch. -/
theorem built_genProof (H : List Nat → MHash) (now epoch : Nat) (s : StoreState)
    (meta : MerkleSnapshotMeta) (s2 : StoreState)
    (hstale : ∀ p ∈ s.epoch_layer_offsets, p.1.epoch ≠ epoch)
    (hb : build_epoch_snapshot H true now epoch s = (.ok meta, s2))
    (hN : meta.leaves_count < 2 ^ 32) :
    ∃ leaves, buildLeaves H (snapshotEntries s epoch) = .ok leaves ∧
      meta.root = rootOf (buildLayers H leaves) ∧
      leaves.length = meta.leaves_count ∧ leaves ≠ [] ∧
      (∀ i, i < meta.leaves_count →
        generate_merkle_proof s2 epoch i = .ok (pureProof (buildLayers H leaves) i)) ∧
      countStoredLayers s2 epoch = (buildLayers H leaves).length := by
  obtain ⟨leaves, hne, hleaves, hroot, hcount, hflat_eq, hofs_eq⟩ :=
    build_ok_inv H now epoch s meta s2 hb
  have hlen : leaves.length = meta.leaves_count := by
    rw [hcount]
    exact buildLeaves_length H _ leaves hleaves
  have hlne : leaves ≠ [] := by
    intro h0
    rw [h0] at hlen
    simp at hlen
    have : (snapshotEntries s epoch).length = 0 := by omega
    exact hne (List.length_eq_zero.mp this)
  have hnone : ∀ lid, 0 ≤ lid → alookup s.epoch_layer_offsets ⟨epoch, lid⟩ = none := by
    intro lid _
    rw [alookup_none_iff]
    intro p hp hc
    exact hstale p hp (by rw [hc])
  have hLSne : buildLayers H leaves ≠ [] := buildLayers_ne_nil H leaves
  have hhead : (buildLayers H leaves).getD 0 [] = leaves := buildLayers_head H leaves
  have hmax : maxLayerOf s2.epoch_layer_offsets epoch = (buildLayers H leaves).length - 1 := by
    rw [hofs_eq, maxLayerOf_storeOffsets epoch (buildLayers H leaves)
        s.epoch_layers.length 0 s.epoch_layer_offsets hnone hLSne,
      maxLayerOf_no_match epoch s.epoch_layer_offsets hstale]
    simp
  refine ⟨leaves, hleaves, hroot, hlen, hlne, ?_, ?_⟩
  · intro i hi
    have hi2 : i < leaves.length := by omega
    have himod : i % 2 ^ 32 = i := Nat.mod_eq_of_lt (by omega)
    show genProofAux s2.epoch_layer_offsets s2.epoch_layers epoch
      (List.range (maxLayerOf s2.epoch_layer_offsets epoch)) (i % 2 ^ 32) = _
    rw [himod, hmax, List.range_eq_range']
    apply genProofAux_ok s2.epoch_layer_offsets s2.epoch_layers epoch
      (buildLayers H leaves) 0 s.epoch_layers.length i
    · intro k hk
      rw [hofs_eq]
      exact storeOffsets_lookup epoch (buildLayers H leaves) s.epoch_layers.length 0
        s.epoch_layer_offsets k hk
    · intro k j hk hj
      rw [hflat_eq,
        show s.epoch_layers.length + sumLens (buildLayers H leaves) k + j
          = s.epoch_layers.length + (sumLens (buildLayers H leaves) k + j) by omega,
        List.getElem?_append_right (by omega)]
      simp only [Nat.add_sub_cancel_left]
      exact flatten_getD (buildLayers H leaves) k j hk hj
    · exact buildLayers_len_chain H leaves
    · rw [hhead]
      exact hi2
  · show (s2.epoch_layer_offsets.filter (fun p => p.1.epoch = epoch)).length = _
    rw [hofs_eq, countMatching_storeOffsets epoch (buildLayers H leaves)
        s.epoch_layers.length 0 s.epoch_layer_offsets hnone]
    have hz : s.epoch_layer_offsets.filter (fun p => decide (p.1.epoch = epoch)) = [] := by
      rw [List.filter_eq_nil]
      intro p hp
      simpa using hstale p hp
    rw [hz]
    simp

/-! ## Claim C1 -/

/-- C1: for every epoch successfully built by build_epoch_snapshot from
N > 0 qualifying wallets (into a store holding no stale offset entries for
that epoch; N below 2^32, as forced by the 32-bit address space of the
deployment target), and every leaf index i below N, folding the sibling
hashes returned by generate_merkle_proof onto the leaf hash of entry i with
the order-independent parent rule reproduces exactly the root recorded in
the epoch's MerkleSnapshotMeta. -/
theorem C1_proof_recombines_to_root (H : List Nat → MHash) (s : StoreState)
    (now epoch : Nat) (meta : MerkleSnapshotMeta) (s2 : StoreState)
    (hstale : ∀ p ∈ s.epoch_layer_offsets, p.1.epoch ≠ epoch)
    (hb : build_epoch_snapshot H true now epoch s = (.ok meta, s2))
    (hN : meta.leaves_count < 2 ^ 32)
    (i : Nat) (hi : i < meta.leaves_count) :
    ∃ leaves proof,
      buildLeaves H (snapshotEntries s epoch) = .ok leaves ∧
      generate_merkle_proof s2 epoch i = .ok proof ∧
      proof.foldl (compute_parent_hash H) (leaves.getD i zeroHash) = meta.root := by
  obtain ⟨leaves, hleaves, hroot, hlen, hlne, hgen, _⟩ :=
    built_genProof H now epoch s meta s2 hstale hb hN
  refine ⟨leaves, pureProof (buildLayers H leaves) i, hleaves, hgen i hi, ?_⟩
  rw [hroot]
  exact fold_pureProof H leaves hlne i (by omega)

/-- Witness for C1: a concrete one-wallet epoch, built from the empty store
after registering a task and completing it. -/
theorem C1_witness :
    ∃ meta s2 leaves proof,
      build_epoch_snapshot cH true 9 1
          (execSeq cH [Op.opInitTasks true [⟨"T1", 100, none⟩],
            Op.opCompleteTask cW1 "T1" none 5] initStore)
        = (.ok meta, s2) ∧
      0 < meta.leaves_count ∧ meta.leaves_count < 2 ^ 32 ∧
      buildLeaves cH (snapshotEntries
          (execSeq cH [Op.opInitTasks true [⟨"T1", 100, none⟩],
            Op.opCompleteTask cW1 "T1" none 5] initStore) 1) = .ok leaves ∧
      generate_merkle_proof s2 1 0 = .ok proof ∧
      proof.foldl (compute_parent_hash cH) (leaves.getD 0 zeroHash) = meta.root := by
  obtain ⟨leaves, proof, h1, h2, h3⟩ :=
    C1_proof_recombines_to_root cH
      (execSeq cH [Op.opInitTasks true [⟨"T1", 100, none⟩],
        Op.opCompleteTask cW1 "T1" none 5] initStore)
      9 1
      ((build_epoch_snapshot cH true 9 1
        (execSeq cH [Op.opInitTasks true [⟨"T1", 100, none⟩],
          Op.opCompleteTask cW1 "T1" none 5] initStore)).1.toOption.getD
        ⟨0, [], 0, false, 0⟩)
      ((build_epoch_snapshot cH true 9 1
        (execSeq cH [Op.opInitTasks true [⟨"T1", 100, none⟩],
          Op.opCompleteTask cW1 "T1" none 5] initStore)).2)
      (by decide) (by rfl) (by decide) 0 (by decide)
  exact ⟨_, _, leaves, proof, rfl, by decide, by decide, h1, h2, h3⟩

/-! ## Claim C9 -/

/-- C9: for every built epoch (same build hypotheses as C1) and every valid
leaf index, the returned proof has exactly (number of stored tree layers
minus one) entries, and every entry is read from the stored layer of its
step — the indices run over layers 0 to count-2 only, so the root layer is
never read into a proof.  For an epoch of exactly one qualifying wallet the
published root equals that single leaf's hash and the proof is empty. -/
theorem C9_proof_shape (H : List Nat → MHash) (s : StoreState)
    (now epoch : Nat) (meta : MerkleSnapshotMeta) (s2 : StoreState)
    (hstale : ∀ p ∈ s.epoch_layer_offsets, p.1.epoch ≠ epoch)
    (hb : build_epoch_snapshot H true now epoch s = (.ok meta, s2))
    (hN : meta.leaves_count < 2 ^ 32) :
    ∃ leaves,
      buildLeaves H (snapshotEntries s epoch) = .ok leaves ∧
      (∀ i, i < meta.leaves_count → ∃ proof,
        generate_merkle_proof s2 epoch i = .ok proof ∧
        proof.length + 1 = countStoredLayers s2 epoch ∧
        (∀ k, k < proof.length →
          proof.getD k zeroHash ∈ (buildLayers H leaves).getD k [])) ∧
      (meta.leaves_count = 1 →
        meta.root = leaves.getD 0 zeroHash ∧
        generate_merkle_proof s2 epoch 0 = .ok []) := by
  obtain ⟨leaves, hleaves, hroot, hlen, hlne, hgen, hcountL⟩ :=
    built_genProof H now epoch s meta s2 hstale hb hN
  have hhead : (buildLayers H leaves).getD 0 [] = leaves := buildLayers_head H leaves
  have hLSne : buildLayers H leaves ≠ [] := buildLayers_ne_nil H leaves
  have hLSpos : 0 < (buildLayers H leaves).length := List.length_pos.mpr hLSne
  refine ⟨leaves, hleaves, ?_, ?_⟩
  · intro i hi
    refine ⟨pureProof (buildLayers H leaves) i, hgen i hi, ?_, ?_⟩
    · rw [pureProof_length, hcountL]
      omega
    · intro k hk
      apply pureProof_mem (buildLayers H leaves) i (buildLayers_len_chain H leaves) _ k hk
      rw [hhead]
      omega
  · intro h1
    have hll : leaves.length = 1 := by omega
    have hLS : buildLayers H leaves = [leaves] := by
      rw [buildLayers_eq]
      simp [hll]
    constructor
    · rw [hroot, hLS]
      simp [rootOf, List.getLastD]
    · have := hgen 0 (by omega)
      rw [hLS] at this
      simpa [pureProof] using this

/-- Witness for C9: the same concrete one-wallet epoch as the C1 witness;
the proof is empty and the root is the single leaf hash. -/
theorem C9_witness :
    ∃ meta s2 leaves,
      build_epoch_snapshot cH true 9 1
          (execSeq cH [Op.opInitTasks true [⟨"T1", 100, none⟩],
            Op.opCompleteTask cW1 "T1" none 5] initStore)
        = (.ok meta, s2) ∧
      meta.leaves_count = 1 ∧
      buildLeaves cH (snapshotEntries
          (execSeq cH [Op.opInitTasks true [⟨"T1", 100, none⟩],
            Op.opCompleteTask cW1 "T1" none 5] initStore) 1) = .ok leaves ∧
      meta.root = leaves.getD 0 zeroHash ∧
      generate_merkle_proof s2 1 0 = .ok [] := by
  obtain ⟨leaves, h1, _, h3⟩ :=
    C9_proof_shape cH
      (execSeq cH [Op.opInitTasks true [⟨"T1", 100, none⟩],
        Op.opCompleteTask cW1 "T1" none 5] initStore)
      9 1
      ((build_epoch_snapshot cH true 9 1
        (execSeq cH [Op.opInitTasks true [⟨"T1", 100, none⟩],
          Op.opCompleteTask cW1 "T1" none 5] initStore)).1.toOption.getD
        ⟨0, [], 0, false, 0⟩)
      ((build_epoch_snapshot cH true 9 1
        (execSeq cH [Op.opInitTasks true [⟨"T1", 100, none⟩],
          Op.opCompleteTask cW1 "T1" none 5] initStore)).2)
      (by decide) (by rfl) (by decide)
  obtain ⟨hr, hp⟩ := h3 (by decide)
  exact ⟨_, _, leaves, rfl, by decide, h1, hr, hp⟩

/-! ## Claim C2 -/

theorem leBytes_mod (w n : Nat) : leBytes w (n % 256 ^ w) = leBytes w n := by
  unfold leBytes
  apply List.map_congr_left
  intro k hk
  have hkw : k < w := List.mem_range.mp hk
  have h1 : 256 ^ w = 256 ^ k * 256 ^ (w - k) := by
    rw [← pow_add]
    congr 1
    omega
  rw [h1, Nat.mod_mul_right_div_self]
  exact Nat.mod_mod_of_dvd _ (dvd_pow_self 256 (by omega))

/-- C2: the leaf hash the snapshot build computes per entry (buildLeaves
invokes compute_leaf_hash) equals the digest of the concatenation of the
epoch as 8-byte little-endian, the index truncated to 32 bits as 4-byte
little-endian, the 32-byte decoded wallet key, and the amount as 8-byte
little-endian. -/
theorem C2_leaf_hash_format (H : List Nat → MHash) (epoch index : Nat)
    (wb : List Nat) (amount : Nat) (hwb : wb.length = 32) :
    compute_leaf_hash H epoch index wb amount
      = H (leBytes 8 epoch ++ leBytes 4 (index % 2 ^ 32) ++ wb ++ leBytes 8 amount) := by
  unfold compute_leaf_hash hFinalize hUpdate hNew
  rw [show (2 : Nat) ^ 32 = 256 ^ 4 by norm_num, leBytes_mod 4 index]
  simp [List.append_assoc]

/-- Witness for C2: a concrete leaf hash with an index above 2^32, showing
the 32-bit truncation in effect. -/
theorem C2_witness :
    (List.replicate 32 7).length = 32 ∧
    compute_leaf_hash cH 1 (2 ^ 32 + 5) (List.replicate 32 7) 9
      = cH (leBytes 8 1 ++ leBytes 4 ((2 ^ 32 + 5) % 2 ^ 32)
          ++ List.replicate 32 7 ++ leBytes 8 9) :=
  ⟨by decide,
    C2_leaf_hash_format cH 1 (2 ^ 32 + 5) (List.replicate 32 7) 9 (by decide)⟩

/-! ## How each operation touches the user-task store -/

theorem alookup_ainsert_cases {K V : Type} [DecidableEq K] (lt : K → K → Bool)
    (l : List (K × V)) (k : K) (v : V) (k2 : K) (x : V)
    (h : alookup (ainsert lt l k v) k2 = some x) :
    (k2 = k ∧ x = v) ∨ alookup l k2 = some x := by
  by_cases he : k2 = k
  · subst he
    rw [alookup_ainsert_self] at h
    cases h
    exact Or.inl ⟨rfl, rfl⟩
  · rw [alookup_ainsert_ne lt l k v k2 he] at h
    exact Or.inr h

theorem getOrInit_user_tasks (w0 : String) (s : StoreState) :
    (get_or_init_user_tasks w0 s).2.user_tasks = s.user_tasks ∨
    (alookup s.user_tasks w0 = none ∧
      (get_or_init_user_tasks w0 s).2.user_tasks
        = ainsert strLt s.user_tasks w0
            ⟨w0, freshTasks s, compute_total_unclaimed (freshTasks s)⟩) := by
  unfold get_or_init_user_tasks
  cases h : alookup s.user_tasks w0 with
  | some st => exact Or.inl rfl
  | none => exact Or.inr ⟨rfl, rfl⟩

theorem build_user_tasks (H : List Nat → MHash) (c : Bool) (now e : Nat) (s : StoreState) :
    (build_epoch_snapshot H c now e s).2.user_tasks = s.user_tasks ∨
    (build_epoch_snapshot H c now e s).2.user_tasks
      = prepareRewards (snapshotEntries s e) s.user_tasks := by
  unfold build_epoch_snapshot
  by_cases hc : c
  · simp only [hc, not_true, if_false]
    split
    · exact Or.inl rfl
    · split
      · exact Or.inl rfl
      · split
        · exact Or.inl rfl
        · exact Or.inr rfl
  · simp [hc]

theorem ticket_user_tasks (w : String) (s : StoreState) :
    (get_claim_ticket w s).2.user_tasks = s.user_tasks ∨
    ∃ st, alookup s.user_tasks w = some st ∧
      (get_claim_ticket w s).2.user_tasks = ainsert strLt s.user_tasks w (issueState st) := by
  unfold get_claim_ticket
  cases hd : decode_wallet_base58 w with
  | error e => left; rfl
  | ok wb =>
    by_cases he : (walletEpochs s w).isEmpty = true
    · left
      simp only [he, if_true]
    · simp only [he, if_false]
      by_cases ho : hasOutstandingTicket s w = true
      · left
        simp only [ho, if_true]
        rfl
      · simp only [ho, if_false]
        cases hm : alookup s.epoch_meta ((sortByEpochDesc (walletEpochs s w)).getD 0 (0, 0, 0)).1 with
        | none =>
          left
          simp only [hm]
          rfl
        | some meta =>
          simp only [hm]
          cases hp : generate_merkle_proof s
              ((sortByEpochDesc (walletEpochs s w)).getD 0 (0, 0, 0)).1
              ((sortByEpochDesc (walletEpochs s w)).getD 0 (0, 0, 0)).2.1 with
          | error err =>
            left
            simp only [hp]
            rfl
          | ok proof =>
            simp only [hp]
            cases h : alookup s.user_tasks w with
            | some st =>
              right
              refine ⟨st, rfl, ?_⟩
              simp only [h]
              rfl
            | none =>
              left
              simp only [h]
              rfl

theorem markResult_user_tasks (w : String) (e : Nat) (r : ClaimResultStatus)
    (tx : Option String) (s : StoreState) :
    (mark_claim_result w e r tx s).2.user_tasks = s.user_tasks ∨
    ∃ st tasks2, alookup s.user_tasks w = some st ∧
      ((r = ClaimResultStatus.Success ∧
        tasks2 = st.tasks.map (fun t =>
          if t.status = TaskStatus.TicketIssued then { t with status := TaskStatus.Claimed } else t)) ∨
       (r = ClaimResultStatus.Failed ∧
        tasks2 = st.tasks.map (fun t =>
          if t.status = TaskStatus.TicketIssued then { t with status := TaskStatus.RewardPrepared } else t))) ∧
      (mark_claim_result w e r tx s).2.user_tasks
        = ainsert strLt s.user_tasks w
            { st with tasks := tasks2, total_unclaimed := compute_total_unclaimed tasks2 } := by
  unfold mark_claim_result
  split
  · exact Or.inl rfl
  · cases h : alookup s.user_tasks w with
    | none => simp [h]
    | some st =>
      cases r with
      | Success =>
        refine Or.inr ⟨st, _, rfl, Or.inl ⟨rfl, rfl⟩, ?_⟩
        simp [h]
      | Failed =>
        refine Or.inr ⟨st, _, rfl, Or.inr ⟨rfl, rfl⟩, ?_⟩
        simp [h]

theorem completeTask_user_tasks (w tid : String) (ev : Option String) (ts : Nat)
    (s : StoreState) :
    (complete_task w tid ev ts s).2.user_tasks = s.user_tasks ∨
    ∃ m1 stR item,
      (m1 = s.user_tasks ∨
        (alookup s.user_tasks w = none ∧
          m1 = ainsert strLt s.user_tasks w
            ⟨w, freshTasks s, compute_total_unclaimed (freshTasks s)⟩)) ∧
      alookup s.task_contract tid = some item ∧
      alookup m1 w = some stR ∧
      ((complete_task w tid ev ts s).2.user_tasks = m1 ∨
        (complete_task w tid ev ts s).2.user_tasks
          = ainsert strLt m1 w
              { stR with
                tasks := (completeWalk tid ev ts item.reward stR.tasks).1
                total_unclaimed :=
                  compute_total_unclaimed (completeWalk tid ev ts item.reward stR.tasks).1 }) := by
  unfold complete_task
  split
  · exact Or.inl rfl
  · cases hc : alookup s.task_contract tid with
    | none => simp [hc]
    | some item =>
      simp only [hc]
      by_cases hu : (alookup s.user_tasks w).isSome = true
      · rw [if_pos hu]
        cases h1 : alookup s.user_tasks w with
        | none => rw [h1] at hu; simp at hu
        | some stR =>
          refine Or.inr ⟨s.user_tasks, stR, item, Or.inl rfl, rfl, h1, ?_⟩
          simp only [h1]
          split
          · exact Or.inl rfl
          · exact Or.inr rfl
      · rw [if_neg hu]
        have h1 : alookup s.user_tasks w = none := by
          cases h : alookup s.user_tasks w
          · rfl
          · rw [h] at hu; simp at hu
        have hg : (get_or_init_user_tasks w s).2.user_tasks
            = ainsert strLt s.user_tasks w
                ⟨w, freshTasks s, compute_total_unclaimed (freshTasks s)⟩ := by
          unfold get_or_init_user_tasks
          simp [h1]
        rw [hg]
        have h2 : alookup (ainsert strLt s.user_tasks w
            ⟨w, freshTasks s, compute_total_unclaimed (freshTasks s)⟩) w
            = some ⟨w, freshTasks s, compute_total_unclaimed (freshTasks s)⟩ :=
          alookup_ainsert_self strLt s.user_tasks w _
        refine Or.inr ⟨_, _, item, Or.inr ⟨h1, rfl⟩, rfl, h2, ?_⟩
        simp only [h2]
        split
        · left
          show (get_or_init_user_tasks w s).2.user_tasks = _
          rw [hg]
        · right
          rfl

theorem payment_user_tasks (wallet : String) (amount : Nat) (tx : String) (ts : Nat)
    (pf : Option String) (s : StoreState) :
    (record_payment wallet amount tx ts pf s).2.user_tasks = s.user_tasks ∨
    ∃ m1 stR tid,
      (m1 = s.user_tasks ∨
        (alookup s.user_tasks wallet = none ∧
          m1 = ainsert strLt s.user_tasks wallet
            ⟨wallet, freshTasks s, compute_total_unclaimed (freshTasks s)⟩)) ∧
      alookup m1 wallet = some stR ∧
      (record_payment wallet amount tx ts pf s).2.user_tasks
        = ainsert strLt m1 wallet
            { stR with
              tasks := autoCompleteTask tid ts stR.tasks
              total_unclaimed := compute_total_unclaimed (autoCompleteTask tid ts stR.tasks) } := by
  unfold record_payment
  split
  · left; rfl
  · cases pf with
    | none => left; rfl
    | some pstr =>
      cases hf : findPayforTask { s with payments := s.payments ++
          [{ wallet := wallet, amount_paid := amount, tx_ref := tx, ts := ts,
             payfor := some pstr }] } pstr with
      | none =>
        left
        simp only [hf]
      | some tid =>
        simp only [hf]
        dsimp only
        by_cases hu : (alookup s.user_tasks wallet).isSome = true
        · rw [if_pos hu]
          cases h1 : alookup s.user_tasks wallet with
          | none => rw [h1] at hu; simp at hu
          | some stR =>
            exact Or.inr ⟨s.user_tasks, stR, tid, Or.inl rfl, h1, rfl⟩
        · rw [if_neg hu]
          have h1 : alookup s.user_tasks wallet = none := by
            cases h : alookup s.user_tasks wallet
            · rfl
            · rw [h] at hu; simp at hu
          have hg : (get_or_init_user_tasks wallet { s with payments := s.payments ++
              [{ wallet := wallet, amount_paid := amount, tx_ref := tx, ts := ts,
                 payfor := some pstr }] }).2.user_tasks
              = ainsert strLt s.user_tasks wallet
                  ⟨wallet, freshTasks s, compute_total_unclaimed (freshTasks s)⟩ := by
            unfold get_or_init_user_tasks
            dsimp only
            rw [h1]
            rfl
          rw [hg, alookup_ainsert_self strLt s.user_tasks wallet _]
          refine Or.inr ⟨_, _, tid, Or.inr ⟨h1, rfl⟩,
            alookup_ainsert_self strLt s.user_tasks wallet _, ?_⟩
          rfl

/-! ## Claim C3 -/

theorem filter_unclaimed_collapse : ∀ tasks : List UserTaskDetail,
    (tasks.filter (fun t => ¬ (t.status = TaskStatus.Claimed))).filter
        (fun t => t.status = TaskStatus.RewardPrepared ∨ t.status = TaskStatus.TicketIssued)
      = tasks.filter
          (fun t => t.status = TaskStatus.RewardPrepared ∨ t.status = TaskStatus.TicketIssued)
  | [] => rfl
  | t :: rest => by
    have ih := filter_unclaimed_collapse rest
    by_cases h1 : t.status = TaskStatus.Claimed
    · rw [List.filter_cons_of_neg (by simp [h1]), ih, List.filter_cons_of_neg (by simp [h1])]
    · rw [List.filter_cons_of_pos (by simp [h1])]
      by_cases h2 : t.status = TaskStatus.RewardPrepared ∨ t.status = TaskStatus.TicketIssued
      · rw [List.filter_cons_of_pos (by simp [h2]), List.filter_cons_of_pos (by simp [h2]), ih]
      · rw [List.filter_cons_of_neg (by simp [h2]), List.filter_cons_of_neg (by simp [h2]), ih]

theorem compute_eq_spec (tasks : List UserTaskDetail) :
    compute_total_unclaimed tasks = specUnclaimedSum tasks := by
  unfold compute_total_unclaimed specUnclaimedSum
  rw [filter_unclaimed_collapse]

theorem prepareRewards_good :
    ∀ (entries : List ClaimEntry) (m : List (String × UserTaskState)),
      (∀ w st, alookup m w = some st →
        st.total_unclaimed = compute_total_unclaimed st.tasks) →
      ∀ w st, alookup (prepareRewards entries m) w = some st →
        st.total_unclaimed = compute_total_unclaimed st.tasks
  | [], m, hm => hm
  | e :: rest, m, hm => by
    show ∀ w st, alookup (prepareRewards rest
      (match alookup m e.wallet with
       | some st0 => ainsert strLt m e.wallet (prepareState st0)
       | none => m)) w = some st →
      st.total_unclaimed = compute_total_unclaimed st.tasks
    cases h0 : alookup m e.wallet with
    | none =>
      simp only [h0]
      exact prepareRewards_good rest m hm
    | some st0 =>
      simp only [h0]
      apply prepareRewards_good rest
      intro w st h
      rcases alookup_ainsert_cases strLt _ _ _ _ _ h with ⟨hw, hv⟩ | hold
      · subst hv; rfl
      · exact hm w st hold

theorem totals_good_applyOp (H : List Nat → MHash) (op : Op) (s : StoreState)
    (hs : ∀ w st, alookup s.user_tasks w = some st →
      st.total_unclaimed = compute_total_unclaimed st.tasks) :
    ∀ w st, alookup (applyOp H s op).user_tasks w = some st →
      st.total_unclaimed = compute_total_unclaimed st.tasks := by
  cases op with
  | opInitTasks c tasks =>
    intro w st h
    have he : (init_task_contract c tasks s).2.user_tasks = s.user_tasks := by
      unfold init_task_contract
      by_cases hc : c <;> simp [hc]
    simp only [applyOp] at h
    rw [he] at h
    exact hs w st h
  | opGetOrInit w0 =>
    intro w st h
    simp only [applyOp] at h
    rcases getOrInit_user_tasks w0 s with he | ⟨hn, he⟩
    · rw [he] at h; exact hs w st h
    · rw [he] at h
      rcases alookup_ainsert_cases strLt _ _ _ _ _ h with ⟨hw, hv⟩ | hold
      · subst hv; rfl
      · exact hs w st hold
  | opRecordPayment w0 a tx ts pf =>
    intro w st h
    simp only [applyOp] at h
    rcases payment_user_tasks w0 a tx ts pf s with he | ⟨m1, stR, tid, hm1, hlk, he⟩
    · rw [he] at h; exact hs w st h
    · rw [he] at h
      rcases alookup_ainsert_cases strLt _ _ _ _ _ h with ⟨hw, hv⟩ | hold
      · subst hv; rfl
      · rcases hm1 with hm | ⟨hn, hm⟩
        · rw [hm] at hold; exact hs w st hold
        · rw [hm] at hold
          rcases alookup_ainsert_cases strLt _ _ _ _ _ hold with ⟨hw2, hv2⟩ | hold2
          · subst hv2; rfl
          · exact hs w st hold2
  | opCompleteTask w0 tid ev ts =>
    intro w st h
    simp only [applyOp] at h
    rcases completeTask_user_tasks w0 tid ev ts s with he | ⟨m1, stR, item, hm1, hct, hlk, he⟩
    · rw [he] at h; exact hs w st h
    · have hm1good : ∀ w st, alookup m1 w = some st →
          st.total_unclaimed = compute_total_unclaimed st.tasks := by
        rcases hm1 with hm | ⟨hn, hm⟩
        · rw [hm]; exact hs
        · rw [hm]
          intro w st h2
          rcases alookup_ainsert_cases strLt _ _ _ _ _ h2 with ⟨hw2, hv2⟩ | hold2
          · subst hv2; rfl
          · exact hs w st hold2
      rcases he with he | he
      · rw [he] at h; exact hm1good w st h
      · rw [he] at h
        rcases alookup_ainsert_cases strLt _ _ _ _ _ h with ⟨hw, hv⟩ | hold
        · subst hv; rfl
        · exact hm1good w st hold
  | opBuildSnapshot c now e =>
    intro w st h
    simp only [applyOp] at h
    rcases build_user_tasks H c now e s with he | he
    · rw [he] at h; exact hs w st h
    · rw [he] at h
      exact prepareRewards_good (snapshotEntries s e) s.user_tasks hs w st h
  | opGetTicket w0 =>
    intro w st h
    simp only [applyOp] at h
    rcases ticket_user_tasks w0 s with he | ⟨st0, hlk, he⟩
    · rw [he] at h; exact hs w st h
    · rw [he] at h
      rcases alookup_ainsert_cases strLt _ _ _ _ _ h with ⟨hw, hv⟩ | hold
      · subst hv; rfl
      · exact hs w st hold
  | opMarkResult w0 e r tx =>
    intro w st h
    simp only [applyOp] at h
    rcases markResult_user_tasks w0 e r tx s with he | ⟨st0, tasks2, hlk, hcase, he⟩
    · rw [he] at h; exact hs w st h
    · rw [he] at h
      rcases alookup_ainsert_cases strLt _ _ _ _ _ h with ⟨hw, hv⟩ | hold
      · subst hv; rfl
      · exact hs w st hold

/-- C3: after every state-mutating operation, in any call sequence from the
empty store, every stored UserTaskState's total_unclaimed equals the u64
sum of reward_amount over exactly its RewardPrepared and TicketIssued
tasks. -/
theorem C3_total_unclaimed_invariant (H : List Nat → MHash) (ops : List Op) :
    TotalsOK (execSeq H ops initStore) := by
  suffices hgen : ∀ (ops : List Op) (s : StoreState),
      (∀ w st, alookup s.user_tasks w = some st →
        st.total_unclaimed = compute_total_unclaimed st.tasks) →
      ∀ w st, alookup (execSeq H ops s).user_tasks w = some st →
        st.total_unclaimed = compute_total_unclaimed st.tasks by
    intro w st h
    rw [hgen ops initStore (by intro w st h0; simp [initStore, alookup] at h0) w st h]
    exact compute_eq_spec st.tasks
  intro ops
  induction ops with
  | nil => intro s hsi; exact hsi
  | cons op rest ih =>
    intro s hsi
    exact ih (applyOp H s op) (totals_good_applyOp H op s hsi)

/-- Witness for C3: the full concrete lifecycle scenario; the stored state
after five operations satisfies the invariant. -/
theorem C3_witness :
    ∃ st, alookup (execSeq cH [Op.opInitTasks true [⟨"T1", 100, none⟩],
        Op.opCompleteTask cW1 "T1" none 5,
        Op.opBuildSnapshot true 9 1,
        Op.opGetTicket cW1,
        Op.opMarkResult cW1 1 ClaimResultStatus.Success none] initStore).user_tasks cW1
      = some st ∧
    st.total_unclaimed = specUnclaimedSum st.tasks := by
  refine ⟨_, rfl, ?_⟩
  exact C3_total_unclaimed_invariant cH
    [Op.opInitTasks true [⟨"T1", 100, none⟩],
      Op.opCompleteTask cW1 "T1" none 5,
      Op.opBuildSnapshot true 9 1,
      Op.opGetTicket cW1,
      Op.opMarkResult cW1 1 ClaimResultStatus.Success none] cW1 _ rfl

/-! ## Claim C4 -/

theorem mapStatus_pointwise (A B : TaskStatus) (tasks : List UserTaskDetail) (i : Nat) :
    ((tasks.map (fun t => if t.status = A then { t with status := B } else t)).getD i dTask).status
        = (tasks.getD i dTask).status ∨
    ((tasks.getD i dTask).status = A ∧
      ((tasks.map (fun t =>
        if t.status = A then { t with status := B } else t)).getD i dTask).status = B) := by
  by_cases hi : i < tasks.length
  · rw [List.getD_eq_getElem _ _ hi, List.getD_eq_getElem _ _ (by simpa using hi),
      List.getElem_map]
    by_cases h : tasks[i].status = A
    · right
      exact ⟨h, by simp [h]⟩
    · left
      simp [h]
  · rw [List.getD_eq_default _ _ (by simp; omega), List.getD_eq_default _ _ (by omega)]
    exact Or.inl rfl

theorem autoComplete_length (tid : String) (ts : Nat) :
    ∀ tasks, (autoCompleteTask tid ts tasks).length = tasks.length
  | [] => rfl
  | t :: rest => by
    unfold autoCompleteTask
    split
    · simp
    · simp [autoComplete_length tid ts rest]

theorem autoComplete_pointwise (tid : String) (ts : Nat) :
    ∀ (tasks : List UserTaskDetail) (i : Nat),
      (autoCompleteTask tid ts tasks).getD i dTask = tasks.getD i dTask ∨
      (((tasks.getD i dTask).status = TaskStatus.NotStarted ∨
          (tasks.getD i dTask).status = TaskStatus.InProgress) ∧
        (autoCompleteTask tid ts tasks).getD i dTask
          = { tasks.getD i dTask with status := TaskStatus.Completed, completed_at := ts })
  | [], i => Or.inl rfl
  | t :: rest, i => by
    unfold autoCompleteTask
    split
    · rename_i hc
      match i with
      | 0 => exact Or.inr ⟨hc.2, rfl⟩
      | i + 1 => exact Or.inl rfl
    · match i with
      | 0 => exact Or.inl rfl
      | i + 1 =>
        have := autoComplete_pointwise tid ts rest i
        simpa using this

theorem completeWalk_length (tid : String) (ev : Option String) (ts r : Nat) :
    ∀ tasks, (completeWalk tid ev ts r tasks).1.length = tasks.length
  | [] => rfl
  | t :: rest => by
    unfold completeWalk
    split
    · split <;> simp
    · simp [completeWalk_length tid ev ts r rest]

theorem completeWalk_pointwise (tid : String) (ev : Option String) (ts r : Nat) :
    ∀ (tasks : List UserTaskDetail) (i : Nat),
      (completeWalk tid ev ts r tasks).1.getD i dTask = tasks.getD i dTask ∨
      (((tasks.getD i dTask).status = TaskStatus.NotStarted ∨
          (tasks.getD i dTask).status = TaskStatus.InProgress) ∧
        (completeWalk tid ev ts r tasks).1.getD i dTask
          = { tasks.getD i dTask with
              status := TaskStatus.Completed, completed_at := ts,
              reward_amount := r, evidence := ev })
  | [], i => Or.inl rfl
  | t :: rest, i => by
    unfold completeWalk
    split
    · split
      · rename_i hst
        match i with
        | 0 => exact Or.inr ⟨hst, rfl⟩
        | i + 1 => exact Or.inl rfl
      · exact Or.inl rfl
    · match i with
      | 0 => exact Or.inl rfl
      | i + 1 =>
        have := completeWalk_pointwise tid ev ts r rest i
        simpa using this

theorem prepareState_idem (st : UserTaskState) :
    prepareState (prepareState st) = prepareState st := by
  have hmm : (st.tasks.map (fun t =>
      if t.status = TaskStatus.Completed then { t with status := TaskStatus.RewardPrepared }
      else t)).map (fun t =>
      if t.status = TaskStatus.Completed then { t with status := TaskStatus.RewardPrepared }
      else t)
      = st.tasks.map (fun t =>
      if t.status = TaskStatus.Completed then { t with status := TaskStatus.RewardPrepared }
      else t) := by
    rw [List.map_map]
    apply List.map_congr_left
    intro t _
    by_cases h : t.status = TaskStatus.Completed <;> simp [Function.comp, h]
  unfold prepareState
  dsimp only
  rw [hmm]

theorem prepareRewards_lookup :
    ∀ (entries : List ClaimEntry) (m : List (String × UserTaskState)) (w : String)
      (st2 : UserTaskState),
      alookup (prepareRewards entries m) w = some st2 →
      alookup m w = some st2 ∨ ∃ st, alookup m w = some st ∧ st2 = prepareState st
  | [], _, _, _, h => Or.inl h
  | e :: rest, m, w, st2, h => by
    have hstep : prepareRewards (e :: rest) m
        = prepareRewards rest
            (match alookup m e.wallet with
             | some st0 => ainsert strLt m e.wallet (prepareState st0)
             | none => m) := rfl
    rw [hstep] at h
    cases h0 : alookup m e.wallet with
    | none =>
      rw [h0] at h
      exact prepareRewards_lookup rest m w st2 h
    | some st0 =>
      rw [h0] at h
      rcases prepareRewards_lookup rest _ w st2 h with hlk | ⟨st, hlk, hp⟩
      · rcases alookup_ainsert_cases strLt _ _ _ _ _ hlk with ⟨hw, hv⟩ | hold
        · subst hw
          exact Or.inr ⟨st0, h0, hv⟩
        · exact Or.inl hold
      · rcases alookup_ainsert_cases strLt _ _ _ _ _ hlk with ⟨hw, hv⟩ | hold
        · subst hw
          refine Or.inr ⟨st0, h0, ?_⟩
          rw [hp, hv, prepareState_idem]
        · exact Or.inr ⟨st, hold, hp⟩

/-- C4: in any single operation, from any store, a stored task's status
either stays, moves forward along the chain NotStarted, InProgress,
Completed, RewardPrepared, TicketIssued, Claimed, or takes the single
backward edge TicketIssued to RewardPrepared, and that only under
mark_claim_result reporting a failure for that wallet.  Applied to each
step of a sequence this is the claimed temporal property. -/
theorem C4_status_monotone (H : List Nat → MHash) (op : Op) (s : StoreState)
    (w : String) (st st2 : UserTaskState)
    (hb : alookup s.user_tasks w = some st)
    (ha : alookup (applyOp H s op).user_tasks w = some st2)
    (i : Nat) :
    st2.tasks.length = st.tasks.length ∧
    allowedStatusChange op w ((st.tasks.getD i dTask).status)
      ((st2.tasks.getD i dTask).status) := by
  cases op with
  | opInitTasks c tasks =>
    have he : (init_task_contract c tasks s).2.user_tasks = s.user_tasks := by
      unfold init_task_contract
      by_cases hc : c <;> simp [hc]
    simp only [applyOp] at ha
    rw [he, hb] at ha
    cases Option.some.inj ha
    exact ⟨rfl, Or.inl rfl⟩
  | opGetOrInit w0 =>
    simp only [applyOp] at ha
    rcases getOrInit_user_tasks w0 s with he | ⟨hn, he⟩
    · rw [he, hb] at ha
      cases Option.some.inj ha
      exact ⟨rfl, Or.inl rfl⟩
    · rw [he] at ha
      rcases alookup_ainsert_cases strLt _ _ _ _ _ ha with ⟨hw, hv⟩ | hold
      · subst hw
        rw [hb] at hn
        cases hn
      · rw [hb] at hold
        cases Option.some.inj hold
        exact ⟨rfl, Or.inl rfl⟩
  | opRecordPayment w0 a tx ts pf =>
    simp only [applyOp] at ha
    rcases payment_user_tasks w0 a tx ts pf s with he | ⟨m1, stR, tid, hm1, hlk, he⟩
    · rw [he, hb] at ha
      cases Option.some.inj ha
      exact ⟨rfl, Or.inl rfl⟩
    · rw [he] at ha
      have hm1w : ∀ x, alookup m1 w = some x → x = st := by
        intro x hx
        rcases hm1 with hm | ⟨hn, hm⟩
        · rw [hm, hb] at hx
          exact (Option.some.inj hx).symm
        · rw [hm] at hx
          rcases alookup_ainsert_cases strLt _ _ _ _ _ hx with ⟨hw2, hv2⟩ | hold2
          · subst hw2
            rw [hb] at hn
            cases hn
          · rw [hb] at hold2
            exact (Option.some.inj hold2).symm
      rcases alookup_ainsert_cases strLt _ _ _ _ _ ha with ⟨hw, hv⟩ | hold
      · subst hw
        have hstR : st = stR := (hm1w stR hlk).symm
        subst hstR
        subst hv
        refine ⟨autoComplete_length tid ts st.tasks, ?_⟩
        rcases autoComplete_pointwise tid ts st.tasks i with hsame | ⟨hsrc, hnew⟩
        · left
          rw [hsame]
        · right
          left
          rw [hnew]
          rcases hsrc with h0 | h0 <;> rw [h0] <;> simp [statusRank]
      · rw [hm1w st2 hold]
        exact ⟨rfl, Or.inl rfl⟩
  | opCompleteTask w0 tid ev ts =>
    simp only [applyOp] at ha
    rcases completeTask_user_tasks w0 tid ev ts s with he | ⟨m1, stR, item, hm1, hct, hlk, he⟩
    · rw [he, hb] at ha
      cases Option.some.inj ha
      exact ⟨rfl, Or.inl rfl⟩
    · have hm1w : ∀ x, alookup m1 w = some x → x = st := by
        intro x hx
        rcases hm1 with hm | ⟨hn, hm⟩
        · rw [hm, hb] at hx
          exact (Option.some.inj hx).symm
        · rw [hm] at hx
          rcases alookup_ainsert_cases strLt _ _ _ _ _ hx with ⟨hw2, hv2⟩ | hold2
          · subst hw2
            rw [hb] at hn
            cases hn
          · rw [hb] at hold2
            exact (Option.some.inj hold2).symm
      rcases he with he | he
      · rw [he] at ha
        rw [hm1w st2 ha]
        exact ⟨rfl, Or.inl rfl⟩
      · rw [he] at ha
        rcases alookup_ainsert_cases strLt _ _ _ _ _ ha with ⟨hw, hv⟩ | hold
        · subst hw
          have hstR : st = stR := (hm1w stR hlk).symm
          subst hstR
          subst hv
          refine ⟨completeWalk_length tid ev ts item.reward st.tasks, ?_⟩
          rcases completeWalk_pointwise tid ev ts item.reward st.tasks i with hsame | ⟨hsrc, hnew⟩
          · left
            rw [hsame]
          · right
            left
            rw [hnew]
            rcases hsrc with h0 | h0 <;> rw [h0] <;> simp [statusRank]
        · rw [hm1w st2 hold]
          exact ⟨rfl, Or.inl rfl⟩
  | opBuildSnapshot c now e =>
    simp only [applyOp] at ha
    rcases build_user_tasks H c now e s with he | he
    · rw [he, hb] at ha
      cases Option.some.inj ha
      exact ⟨rfl, Or.inl rfl⟩
    · rw [he] at ha
      rcases prepareRewards_lookup (snapshotEntries s e) s.user_tasks w st2 ha with hlk | ⟨st0, hlk, hp⟩
      · rw [hb] at hlk
        cases Option.some.inj hlk
        exact ⟨rfl, Or.inl rfl⟩
      · rw [hb] at hlk
        cases Option.some.inj hlk
        subst hp
        refine ⟨by simp [prepareState], ?_⟩
        have hpt : (prepareState st).tasks = st.tasks.map (fun t =>
            if t.status = TaskStatus.Completed then { t with status := TaskStatus.RewardPrepared }
            else t) := rfl
        rw [hpt]
        rcases mapStatus_pointwise TaskStatus.Completed TaskStatus.RewardPrepared st.tasks i with
          hsame | ⟨hsrc, hnew⟩
        · left
          rw [hsame]
        · right
          left
          rw [hnew, hsrc]
          simp [statusRank]
  | opGetTicket w0 =>
    simp only [applyOp] at ha
    rcases ticket_user_tasks w0 s with he | ⟨st0, hlk, he⟩
    · rw [he, hb] at ha
      cases Option.some.inj ha
      exact ⟨rfl, Or.inl rfl⟩
    · rw [he] at ha
      rcases alookup_ainsert_cases strLt _ _ _ _ _ ha with ⟨hw, hv⟩ | hold
      · subst hw
        rw [hb] at hlk
        cases Option.some.inj hlk
        subst hv
        refine ⟨by simp [issueState], ?_⟩
        have hpt : (issueState st).tasks = st.tasks.map (fun t =>
            if t.status = TaskStatus.RewardPrepared then { t with status := TaskStatus.TicketIssued }
            else t) := rfl
        rw [hpt]
        rcases mapStatus_pointwise TaskStatus.RewardPrepared TaskStatus.TicketIssued st.tasks i with
          hsame | ⟨hsrc, hnew⟩
        · left
          rw [hsame]
        · right
          left
          rw [hnew, hsrc]
          simp [statusRank]
      · rw [hb] at hold
        cases Option.some.inj hold
        exact ⟨rfl, Or.inl rfl⟩
  | opMarkResult w0 e r tx =>
    simp only [applyOp] at ha
    rcases markResult_user_tasks w0 e r tx s with he | ⟨st0, tasks2, hlk, hcase, he⟩
    · rw [he, hb] at ha
      cases Option.some.inj ha
      exact ⟨rfl, Or.inl rfl⟩
    · rw [he] at ha
      rcases alookup_ainsert_cases strLt _ _ _ _ _ ha with ⟨hw, hv⟩ | hold
      · subst hw
        rw [hb] at hlk
        cases Option.some.inj hlk
        subst hv
        rcases hcase with ⟨hr, ht⟩ | ⟨hr, ht⟩
        · subst ht
          refine ⟨by simp, ?_⟩
          show allowedStatusChange _ _ _ ((st.tasks.map (fun t =>
            if t.status = TaskStatus.TicketIssued then { t with status := TaskStatus.Claimed }
            else t)).getD i dTask).status
          rcases mapStatus_pointwise TaskStatus.TicketIssued TaskStatus.Claimed st.tasks i with
            hsame | ⟨hsrc, hnew⟩
          · left
            rw [hsame]
          · right
            left
            rw [hnew, hsrc]
            simp [statusRank]
        · subst ht
          refine ⟨by simp, ?_⟩
          show allowedStatusChange _ _ _ ((st.tasks.map (fun t =>
            if t.status = TaskStatus.TicketIssued then { t with status := TaskStatus.RewardPrepared }
            else t)).getD i dTask).status
          rcases mapStatus_pointwise TaskStatus.TicketIssued TaskStatus.RewardPrepared st.tasks i with
            hsame | ⟨hsrc, hnew⟩
          · left
            rw [hsame]
          · subst hr
            right
            right
            exact ⟨hsrc, hnew, e, tx, rfl⟩
      · rw [hb] at hold
        cases Option.some.inj hold
        exact ⟨rfl, Or.inl rfl⟩

/-- Witness for C4: a failed claim report on a wallet holding a
TicketIssued task takes exactly the sanctioned backward edge. -/
theorem C4_witness :
    ∃ st st2,
      alookup (StoreState.mk [] [(cW1, ⟨cW1, [⟨"T1", TaskStatus.TicketIssued, 5, 100, none⟩], 100⟩)]
          [] [] [] [] []).user_tasks cW1 = some st ∧
      alookup (applyOp cH (StoreState.mk [] [(cW1, ⟨cW1, [⟨"T1", TaskStatus.TicketIssued, 5, 100, none⟩], 100⟩)]
          [] [] [] [] [])
        (Op.opMarkResult cW1 1 ClaimResultStatus.Failed none)).user_tasks cW1 = some st2 ∧
      st2.tasks.length = st.tasks.length ∧
      allowedStatusChange (Op.opMarkResult cW1 1 ClaimResultStatus.Failed none) cW1
        ((st.tasks.getD 0 dTask).status) ((st2.tasks.getD 0 dTask).status) := by
  refine ⟨_, _, rfl, rfl, ?_⟩
  exact C4_status_monotone cH (Op.opMarkResult cW1 1 ClaimResultStatus.Failed none)
    (StoreState.mk [] [(cW1, ⟨cW1, [⟨"T1", TaskStatus.TicketIssued, 5, 100, none⟩], 100⟩)]
      [] [] [] [] []) cW1 _ _ rfl rfl 0

/-! ## Claim C5 -/

/-- C5 as stated is false on the code: materialized entries carry
reward_amount = item.reward, not 0.  Concrete counterexample: a registry
task with reward 100 and a fresh wallet. -/
theorem C5_counterexample :
    alookup (execSeq cH [Op.opInitTasks true [⟨"T1", 100, none⟩]] initStore).user_tasks cW1
      = none ∧
    ¬ (∀ t ∈ (get_or_init_user_tasks cW1
        (execSeq cH [Op.opInitTasks true [⟨"T1", 100, none⟩]] initStore)).1.tasks,
      t.reward_amount = 0) := by
  constructor
  · rfl
  · decide

/-- C5 amended: for a wallet with no stored state, get_or_init_user_tasks
materializes, stores and returns one entry per current registry task in key
order, each NotStarted with completed_at 0, no evidence, and reward_amount
equal to that registry task's reward (not zero). -/
theorem C5_fresh_materialization (s : StoreState) (w : String)
    (hn : alookup s.user_tasks w = none) :
    (get_or_init_user_tasks w s).1.wallet = w ∧
    (get_or_init_user_tasks w s).1.tasks.length = s.task_contract.length ∧
    (∀ i, i < s.task_contract.length →
      ((get_or_init_user_tasks w s).1.tasks.getD i dTask).taskid
          = (s.task_contract.getD i ("", ⟨"", 0, none⟩)).2.taskid ∧
      ((get_or_init_user_tasks w s).1.tasks.getD i dTask).status = TaskStatus.NotStarted ∧
      ((get_or_init_user_tasks w s).1.tasks.getD i dTask).completed_at = 0 ∧
      ((get_or_init_user_tasks w s).1.tasks.getD i dTask).reward_amount
          = (s.task_contract.getD i ("", ⟨"", 0, none⟩)).2.reward ∧
      ((get_or_init_user_tasks w s).1.tasks.getD i dTask).evidence = none) ∧
    alookup (get_or_init_user_tasks w s).2.user_tasks w
      = some (get_or_init_user_tasks w s).1 := by
  have hg1 : (get_or_init_user_tasks w s).1
      = ⟨w, freshTasks s, compute_total_unclaimed (freshTasks s)⟩ := by
    unfold get_or_init_user_tasks
    rw [hn]
  have hg2 : (get_or_init_user_tasks w s).2.user_tasks
      = ainsert strLt s.user_tasks w ⟨w, freshTasks s, compute_total_unclaimed (freshTasks s)⟩ := by
    unfold get_or_init_user_tasks
    rw [hn]
  rw [hg1, hg2]
  refine ⟨rfl, by simp [freshTasks], ?_, ?_⟩
  · intro i hi
    have hgd : (freshTasks s).getD i dTask
        = { taskid := (s.task_contract.getD i ("", ⟨"", 0, none⟩)).2.taskid,
            status := TaskStatus.NotStarted, completed_at := 0,
            reward_amount := (s.task_contract.getD i ("", ⟨"", 0, none⟩)).2.reward,
            evidence := none } := by
      unfold freshTasks
      rw [List.getD_eq_getElem _ _ (by simpa using hi), List.getElem_map,
        List.getD_eq_getElem _ _ hi]
    exact ⟨by rw [hgd], by rw [hgd], by rw [hgd], by rw [hgd], by rw [hgd]⟩
  · exact alookup_ainsert_self strLt s.user_tasks w _

/-- Witness for the amended C5: a registry with one task of reward 100 and
a fresh wallet. -/
theorem C5_witness :
    alookup (execSeq cH [Op.opInitTasks true [⟨"T1", 100, none⟩]] initStore).user_tasks cW1
        = none ∧
    (∀ i, i < (execSeq cH [Op.opInitTasks true [⟨"T1", 100, none⟩]] initStore).task_contract.length →
      ((get_or_init_user_tasks cW1
          (execSeq cH [Op.opInitTasks true [⟨"T1", 100, none⟩]] initStore)).1.tasks.getD i
        dTask).status = TaskStatus.NotStarted) := by
  refine ⟨rfl, ?_⟩
  intro i hi
  exact ((C5_fresh_materialization
    (execSeq cH [Op.opInitTasks true [⟨"T1", 100, none⟩]] initStore) cW1 rfl).2.2.1 i hi).2.1

/-! ## Claim C6 -/

/-- C6 as stated is false on the code: record_payment does not re-pin
reward_amount from the registry at the moment of the call.  Concretely:
register T1 with reward 100, materialize the wallet, raise the reward to
200, then pay; the completed task keeps reward_amount 100 while the
registry holds 200. -/
theorem C6_counterexample :
    ∃ st item,
      alookup (execSeq cH [Op.opInitTasks true [⟨"T1", 100, some "p"⟩],
          Op.opGetOrInit cW1,
          Op.opInitTasks true [⟨"T1", 200, some "p"⟩],
          Op.opRecordPayment cW1 5 "tx" 7 (some "p")] initStore).user_tasks cW1 = some st ∧
      alookup (execSeq cH [Op.opInitTasks true [⟨"T1", 100, some "p"⟩],
          Op.opGetOrInit cW1,
          Op.opInitTasks true [⟨"T1", 200, some "p"⟩]] initStore).task_contract "T1"
        = some item ∧
      item.reward = 200 ∧
      (st.tasks.getD 0 dTask).status = TaskStatus.Completed ∧
      (st.tasks.getD 0 dTask).completed_at = 7 ∧
      (st.tasks.getD 0 dTask).reward_amount = 100 ∧
      ¬ (st.tasks.getD 0 dTask).reward_amount = item.reward := by
  refine ⟨_, _, rfl, rfl, ?_, ?_, ?_, ?_, ?_⟩ <;> decide

theorem autoComplete_at_findIdx (tid : String) (ts : Nat) :
    ∀ (tasks : List UserTaskDetail) (i : Nat),
      tasks.findIdx (fun t => t.taskid = tid ∧
        (t.status = TaskStatus.NotStarted ∨ t.status = TaskStatus.InProgress)) = i →
      i < tasks.length →
      (autoCompleteTask tid ts tasks).getD i dTask
          = { tasks.getD i dTask with status := TaskStatus.Completed, completed_at := ts } ∧
      ∀ j, ¬ j = i → (autoCompleteTask tid ts tasks).getD j dTask = tasks.getD j dTask
  | [], i, _, hi => by simp at hi
  | t :: rest, i, hidx, hi => by
    by_cases hp : t.taskid = tid ∧
        (t.status = TaskStatus.NotStarted ∨ t.status = TaskStatus.InProgress)
    · have h0 : i = 0 := by
        rw [List.findIdx_cons] at hidx
        simpa [hp] using hidx.symm
      subst h0
      have hac : autoCompleteTask tid ts (t :: rest)
          = { t with status := TaskStatus.Completed, completed_at := ts } :: rest := by
        unfold autoCompleteTask
        rw [if_pos hp]
      rw [hac]
      refine ⟨rfl, ?_⟩
      intro j hj
      match j with
      | 0 => exact absurd rfl hj
      | j + 1 => rfl
    · have hstep : rest.findIdx (fun t => t.taskid = tid ∧
          (t.status = TaskStatus.NotStarted ∨ t.status = TaskStatus.InProgress)) + 1 = i := by
        rw [List.findIdx_cons] at hidx
        simpa [hp] using hidx
      obtain ⟨i2, hi2⟩ : ∃ i2, i = i2 + 1 := ⟨i - 1, by omega⟩
      subst hi2
      have hidx2 : rest.findIdx (fun t => t.taskid = tid ∧
          (t.status = TaskStatus.NotStarted ∨ t.status = TaskStatus.InProgress)) = i2 := by
        omega
      have hac : autoCompleteTask tid ts (t :: rest) = t :: autoCompleteTask tid ts rest := by
        simp [autoCompleteTask, hp]
      rw [hac]
      have hrest := autoComplete_at_findIdx tid ts rest i2 hidx2 (by simpa using hi)
      refine ⟨hrest.1, ?_⟩
      intro j hj
      match j with
      | 0 => rfl
      | j + 1 =>
        have := hrest.2 j (by omega)
        simpa using this

/-- C6 amended: when payfor names a registry task and the wallet's stored
state has a task with that taskid in NotStarted or InProgress (the first
such task, at position i), record_payment succeeds and flips exactly that
task to Completed with completed_at = ts, leaving reward_amount unchanged
at its stored value rather than re-pinning it from the registry. -/
theorem C6_payment_completion (s : StoreState) (w : String) (amt : Nat) (tx : String)
    (ts : Nat) (pf tid : String) (st : UserTaskState) (i : Nat) (wb : List Nat)
    (hdec : decode_wallet_base58 w = .ok wb)
    (hfind : findPayforTask s pf = some tid)
    (hst : alookup s.user_tasks w = some st)
    (hidx : st.tasks.findIdx (fun t => t.taskid = tid ∧
      (t.status = TaskStatus.NotStarted ∨ t.status = TaskStatus.InProgress)) = i)
    (hi : i < st.tasks.length) :
    ∃ st2,
      (record_payment w amt tx ts (some pf) s).1 = .ok () ∧
      alookup (record_payment w amt tx ts (some pf) s).2.user_tasks w = some st2 ∧
      st2.tasks.length = st.tasks.length ∧
      st2.tasks.getD i dTask
        = { st.tasks.getD i dTask with
            status := TaskStatus.Completed, completed_at := ts } ∧
      (st2.tasks.getD i dTask).reward_amount = (st.tasks.getD i dTask).reward_amount ∧
      ∀ j, ¬ j = i → st2.tasks.getD j dTask = st.tasks.getD j dTask := by
  have hfind1 : findPayforTask { s with payments := s.payments ++
      [{ wallet := w, amount_paid := amt, tx_ref := tx, ts := ts,
         payfor := some pf }] } pf = some tid := hfind
  have hred : record_payment w amt tx ts (some pf) s
      = (.ok (), { s with
          payments := s.payments ++
            [{ wallet := w, amount_paid := amt, tx_ref := tx, ts := ts, payfor := some pf }]
          user_tasks := ainsert strLt s.user_tasks w
            { wallet := st.wallet
              tasks := autoCompleteTask tid ts st.tasks
              total_unclaimed := compute_total_unclaimed (autoCompleteTask tid ts st.tasks) } }) := by
    unfold record_payment
    rw [hdec]
    dsimp only
    rw [hfind1]
    dsimp only
    rw [if_pos (show (alookup s.user_tasks w).isSome = true from by rw [hst]; rfl)]
    dsimp only
    rw [hst]
  rw [hred]
  dsimp only
  refine ⟨_, rfl, alookup_ainsert_self strLt s.user_tasks w _, ?_, ?_, ?_, ?_⟩
  · exact autoComplete_length tid ts st.tasks
  · exact (autoComplete_at_findIdx tid ts st.tasks i hidx hi).1
  · rw [(autoComplete_at_findIdx tid ts st.tasks i hidx hi).1]
  · exact (autoComplete_at_findIdx tid ts st.tasks i hidx hi).2

/-- Witness for the amended C6: the counterexample scenario, at the moment
of the payment call. -/
theorem C6_witness :
    ∃ st2,
      (record_payment cW1 5 "tx" 7 (some "p")
        (execSeq cH [Op.opInitTasks true [⟨"T1", 100, some "p"⟩],
          Op.opGetOrInit cW1,
          Op.opInitTasks true [⟨"T1", 200, some "p"⟩]] initStore)).1 = .ok () ∧
      alookup (record_payment cW1 5 "tx" 7 (some "p")
        (execSeq cH [Op.opInitTasks true [⟨"T1", 100, some "p"⟩],
          Op.opGetOrInit cW1,
          Op.opInitTasks true [⟨"T1", 200, some "p"⟩]] initStore)).2.user_tasks cW1
        = some st2 ∧
      st2.tasks.length = 1 ∧
      st2.tasks.getD 0 dTask
        = { (⟨"T1", TaskStatus.NotStarted, 0, 100, none⟩ : UserTaskDetail) with
            status := TaskStatus.Completed
            completed_at := 7 } ∧
      (st2.tasks.getD 0 dTask).reward_amount = 100 := by
  obtain ⟨st2, h1, h2, h3, h4, h5, h6⟩ :=
    C6_payment_completion
      (execSeq cH [Op.opInitTasks true [⟨"T1", 100, some "p"⟩],
        Op.opGetOrInit cW1,
        Op.opInitTasks true [⟨"T1", 200, some "p"⟩]] initStore)
      cW1 5 "tx" 7 "p" "T1"
      ⟨cW1, [⟨"T1", TaskStatus.NotStarted, 0, 100, none⟩], 0⟩ 0 (List.replicate 32 0)
      (by rfl) (by rfl) (by rfl) (by decide) (by decide)
  exact ⟨st2, h1, h2, h3.trans (by rfl), h4.trans (by rfl), h5.trans (by rfl)⟩

/-! ## Claim C7 -/

/-- C7 as stated is false on the code: get_or_init_user_tasks cannot fail
at all — on a malformed address it only logs a warning, then materializes
and stores an aggregate, so persistent state changes.  Concretely: the
empty string is not a well-formed 32-byte base58 address, yet the call
mutates the empty store. -/
theorem C7_counterexample :
    (∃ msg, decode_wallet_base58 "" = .error msg) ∧
    (get_or_init_user_tasks "" initStore).2.user_tasks ≠ [] := by
  refine ⟨⟨_, rfl⟩, ?_⟩
  decide

/-- C7 amended: record_payment, complete_task, get_claim_ticket and
mark_claim_result all reject a wallet string that does not decode to 32
base58 bytes, returning the decode error and leaving the store untouched;
get_or_init_user_tasks, by contrast, never validates effectively. -/
theorem C7_invalid_address_rejected (s : StoreState) (w msg : String)
    (hdec : decode_wallet_base58 w = .error msg) :
    (∀ amt tx ts pf, record_payment w amt tx ts pf s = (.error msg, s)) ∧
    (∀ tid ev ts, complete_task w tid ev ts s = (.error msg, s)) ∧
    get_claim_ticket w s = (.error msg, s) ∧
    (∀ e r txs, mark_claim_result w e r txs s = (.error msg, s)) := by
  refine ⟨?_, ?_, ?_, ?_⟩
  · intro amt tx ts pf
    unfold record_payment
    rw [hdec]
  · intro tid ev ts
    unfold complete_task
    rw [hdec]
  · unfold get_claim_ticket
    rw [hdec]
  · intro e r txs
    unfold mark_claim_result
    rw [hdec]

/-- Witness for the amended C7: the empty string against the empty store. -/
theorem C7_witness :
    decode_wallet_base58 "" = .error "Invalid wallet length: expected 32 bytes, got 0" ∧
    record_payment "" 1 "tx" 2 none initStore
      = (.error "Invalid wallet length: expected 32 bytes, got 0", initStore) ∧
    get_claim_ticket "" initStore
      = (.error "Invalid wallet length: expected 32 bytes, got 0", initStore) := by
  have h := C7_invalid_address_rejected initStore ""
    "Invalid wallet length: expected 32 bytes, got 0" (by rfl)
  exact ⟨by rfl, h.1 1 "tx" 2 none, h.2.2.1⟩

/-! ## Claim C8 -/

theorem msg_head_ne (a b : String) (c1 c2 : Char) (h1 : a.data.head? = some c1)
    (h2 : b.data.head? = some c2) (hc : ¬ c1 = c2) : ¬ a = b := by
  intro he
  subst he
  rw [h1] at h2
  exact hc (Option.some.inj h2)

theorem genProofAux_error_head (ofs : List (EpochLayerKey × LayerOffset))
    (flat : List MHash) (e : Nat) :
    ∀ (ids : List Nat) (cur : Nat) (msg : String),
      genProofAux ofs flat e ids cur = .error msg →
      msg.data.head? = some 'L' ∨ msg.data.head? = some 'H'
  | [], cur, msg, h => by simp [genProofAux] at h
  | lid :: rest, cur, msg, h => by
    simp only [genProofAux] at h
    split at h
    · cases h
      left
      rfl
    · split at h
      · cases h
        right
        rfl
      · split at h
        · cases h
          rename_i heq
          exact genProofAux_error_head ofs flat e rest (cur / 2) _ heq
        · cases h
    termination_by ids => ids.length

/-- C8: for a wallet holding a leaf in some built epoch (nonempty wallet
index) and a well-formed address, get_claim_ticket fails with the
InvalidState gate message exactly when the wallet's stored state holds any
TicketIssued or Claimed task — and such a failing call leaves the whole
store unchanged; absent such a task the call never fails with that gate
(it returns a ticket or a different, NotFound-style error). -/
theorem C8_outstanding_gate (s : StoreState) (w : String) (wb : List Nat)
    (hdec : decode_wallet_base58 w = .ok wb)
    (hleaf : ¬ walletEpochs s w = []) :
    (hasOutstandingTicket s w = true →
      get_claim_ticket w s = (.error ticketAlreadyIssuedMsg, s)) ∧
    (hasOutstandingTicket s w = false →
      ¬ (get_claim_ticket w s).1 = .error ticketAlreadyIssuedMsg) := by
  have hie : (walletEpochs s w).isEmpty = false := by
    cases hq : walletEpochs s w with
    | nil => exact absurd hq hleaf
    | cons a l => rfl
  constructor
  · intro houts
    unfold get_claim_ticket
    rw [hdec]
    dsimp only
    rw [if_neg (by simp [hie]), if_pos houts]
  · intro houts hcontra
    unfold get_claim_ticket at hcontra
    rw [hdec] at hcontra
    dsimp only at hcontra
    rw [if_neg (by simp [hie]), if_neg (by simp [houts])] at hcontra
    split at hcontra
    · dsimp only at hcontra
      simp only [Except.error.injEq] at hcontra
      exact absurd hcontra (msg_head_ne _ _ 'E' 'T' rfl rfl (by decide))
    · split at hcontra
      · rename_i e2 heq
        dsimp only at hcontra
        simp only [Except.error.injEq] at hcontra
        subst hcontra
        rcases genProofAux_error_head s.epoch_layer_offsets s.epoch_layers _ _ _ _ heq with
          hh | hh
        · exact absurd rfl (msg_head_ne _ _ 'L' 'T' hh rfl (by decide))
        · exact absurd rfl (msg_head_ne _ _ 'H' 'T' hh rfl (by decide))
      · dsimp only at hcontra
        cases hcontra

/-- Witness for C8: after a successful first ticket issuance, the second
call without a reported result fails with the gate error and changes
nothing. -/
theorem C8_witness :
    decode_wallet_base58 cW1 = .ok (List.replicate 32 0) ∧
    ¬ walletEpochs (execSeq cH [Op.opInitTasks true [⟨"T1", 100, none⟩],
        Op.opCompleteTask cW1 "T1" none 5,
        Op.opBuildSnapshot true 9 1,
        Op.opGetTicket cW1] initStore) cW1 = [] ∧
    hasOutstandingTicket (execSeq cH [Op.opInitTasks true [⟨"T1", 100, none⟩],
        Op.opCompleteTask cW1 "T1" none 5,
        Op.opBuildSnapshot true 9 1,
        Op.opGetTicket cW1] initStore) cW1 = true ∧
    get_claim_ticket cW1 (execSeq cH [Op.opInitTasks true [⟨"T1", 100, none⟩],
        Op.opCompleteTask cW1 "T1" none 5,
        Op.opBuildSnapshot true 9 1,
        Op.opGetTicket cW1] initStore)
      = (.error ticketAlreadyIssuedMsg,
         execSeq cH [Op.opInitTasks true [⟨"T1", 100, none⟩],
           Op.opCompleteTask cW1 "T1" none 5,
           Op.opBuildSnapshot true 9 1,
           Op.opGetTicket cW1] initStore) := by
  refine ⟨by rfl, by decide, by rfl, ?_⟩
  exact (C8_outstanding_gate
    (execSeq cH [Op.opInitTasks true [⟨"T1", 100, none⟩],
      Op.opCompleteTask cW1 "T1" none 5,
      Op.opBuildSnapshot true 9 1,
      Op.opGetTicket cW1] initStore)
    cW1 (List.replicate 32 0) (by rfl) (by decide)).1 (by rfl)

/-! ## Claim C10 -/

/-- C10: registry upserts via init_task_contract never touch any stored
UserTaskState, and a later get_or_init_user_tasks on a materialized wallet
returns the previously stored aggregate with the whole store unchanged —
so tasks registered after materialization never appear in that wallet's
state. -/
theorem C10_registry_frame (s : StoreState) (c : Bool) (tasks : List TaskContractItem)
    (w : String) (st : UserTaskState)
    (h : alookup s.user_tasks w = some st) :
    (init_task_contract c tasks s).2.user_tasks = s.user_tasks ∧
    get_or_init_user_tasks w (init_task_contract c tasks s).2
      = (st, (init_task_contract c tasks s).2) := by
  have he : (init_task_contract c tasks s).2.user_tasks = s.user_tasks := by
    unfold init_task_contract
    by_cases hc : c <;> simp [hc]
  refine ⟨he, ?_⟩
  unfold get_or_init_user_tasks
  rw [he, h]

/-- Witness for C10: register T1, materialize the wallet, then register a
new task T2 with a changed T1 reward; the stored aggregate still has
exactly the single old T1 entry with the old reward. -/
theorem C10_witness :
    ∃ st,
      alookup (execSeq cH [Op.opInitTasks true [⟨"T1", 100, none⟩],
        Op.opGetOrInit cW1] initStore).user_tasks cW1 = some st ∧
      get_or_init_user_tasks cW1
          (init_task_contract true [⟨"T1", 300, none⟩, ⟨"T2", 50, none⟩]
            (execSeq cH [Op.opInitTasks true [⟨"T1", 100, none⟩],
              Op.opGetOrInit cW1] initStore)).2
        = (st, (init_task_contract true [⟨"T1", 300, none⟩, ⟨"T2", 50, none⟩]
            (execSeq cH [Op.opInitTasks true [⟨"T1", 100, none⟩],
              Op.opGetOrInit cW1] initStore)).2) ∧
      st.tasks.map (fun t => (t.taskid, t.reward_amount)) = [("T1", 100)] := by
  refine ⟨_, rfl, ?_, by decide⟩
  exact (C10_registry_frame
    (execSeq cH [Op.opInitTasks true [⟨"T1", 100, none⟩], Op.opGetOrInit cW1] initStore)
    true [⟨"T1", 300, none⟩, ⟨"T2", 50, none⟩] cW1 _ rfl).2
